import Mathlib

/-!
Verification development for the word2vec-rust repository.

Shallow embedding of the corpus tokenizer (src/tokenizer.rs), the vocabulary
(src/vocab.rs) and the control skeleton of the training engine
(src/nnet.rs, src/main.rs), together with theorems settling the claims of
the specification.

Modelling conventions:
* bytes are `Nat` (values 0..255); file contents are `List Nat`;
* Rust machine integers are `Nat`/`Int` (wrap/overflow is noted where the
  source could hit it, and ruled out by hypotheses where it matters);
* fallible operations return `Except VErr _`; a Rust panic (assert failure,
  out-of-bounds index, integer remainder by zero) is an explicit error value;
* unbounded source loops are given explicit fuel; theorems either condition
  on successful (`.ok`) results or prove the fuel sufficient;
* the vocabulary hash-table size `VOCAB_HASH_TABLE_SIZE = 30_000_000` and the
  hash function (Rust's `DefaultHasher`) are parameters `T` and `hashW` of the
  embedding: theorems quantify over them, so they hold in particular at the
  source's values;
* `f64` arithmetic in `init_unigram_table` is modelled with exact rational
  arithmetic and an abstract positive weight function `wpow` standing for
  `count ↦ count^0.75`; the float comparison `words.len() as f64 > 0.7 * T as f64`
  in `add_word` is modelled exactly as `10 * len > 7 * T`.
-/

set_option maxHeartbeats 1000000
set_option maxRecDepth 8000

namespace W2V

/-! ## Tokenizer (src/tokenizer.rs) -/

/-- `is_token_separator` (tokenizer.rs:19-21): newline, space, tab, CR. -/
def isTokenSep (b : Nat) : Bool := b == 10 || b == 32 || b == 9 || b == 13

/-- `is_doc_separator` (tokenizer.rs:23-25): newline only. -/
def isDocSep (b : Nat) : Bool := b == 10

/-- The sentence sentinel token `"</s>"` as bytes. -/
def sentinelTok : List Nat := [60, 47, 115, 62]

/-- The replacement token `"<INV>"` produced for invalid UTF-8 (tokenizer.rs:106). -/
def invTok : List Nat := [60, 73, 78, 86, 62]

/-- UTF-8 continuation byte 0x80..0xBF. -/
def contByte (b : Nat) : Bool := 128 ≤ b && b ≤ 191

/-- UTF-8 validation by direct descent over the bytes, one fuel unit per
sequence; `fuel = l.length` always suffices since every sequence consumes at
least one byte. -/
def validUtf8Go : Nat → List Nat → Bool
  | 0, l => l.isEmpty
  | _ + 1, [] => true
  | fuel + 1, b :: bs =>
    if b ≤ 127 then validUtf8Go fuel bs
    else if 194 ≤ b && b ≤ 223 then
      match bs with
      | c :: bs2 => contByte c && validUtf8Go fuel bs2
      | [] => false
    else if b == 224 then
      match bs with
      | c :: d :: bs2 => (160 ≤ c && c ≤ 191) && contByte d && validUtf8Go fuel bs2
      | _ => false
    else if (225 ≤ b && b ≤ 236) || b == 238 || b == 239 then
      match bs with
      | c :: d :: bs2 => contByte c && contByte d && validUtf8Go fuel bs2
      | _ => false
    else if b == 237 then
      match bs with
      | c :: d :: bs2 => (128 ≤ c && c ≤ 159) && contByte d && validUtf8Go fuel bs2
      | _ => false
    else if b == 240 then
      match bs with
      | c :: d :: e :: bs2 =>
        (144 ≤ c && c ≤ 191) && contByte d && contByte e && validUtf8Go fuel bs2
      | _ => false
    else if 241 ≤ b && b ≤ 243 then
      match bs with
      | c :: d :: e :: bs2 => contByte c && contByte d && contByte e && validUtf8Go fuel bs2
      | _ => false
    else if b == 244 then
      match bs with
      | c :: d :: e :: bs2 =>
        (128 ≤ c && c ≤ 143) && contByte d && contByte e && validUtf8Go fuel bs2
      | _ => false
    else false

/-- Validity condition of `str::from_utf8` / `String::from_utf8` on a byte list. -/
def validUtf8 (l : List Nat) : Bool := validUtf8Go l.length l

/-- `vec_to_string_opt` (tokenizer.rs:105-107): a token's bytes become the
string with those bytes when they are valid UTF-8, else `"<INV>"`. -/
def tokenOut (bs : List Nat) : List Nat := if validUtf8 bs then bs else invTok

/-! ### Pure single-pass reference semantics of `read_file_by_tokens`

`tokenizeAux cur content` emits the tokens of `content` given a pending
partial token `cur`: maximal runs of non-separator bytes, with the sentinel
emitted right after each newline. The chunked loop of `read_file_by_tokens`
(tokenizer.rs:28-86) is proved equal to it below. -/

def tokenizeAux (cur : List Nat) : List Nat → List (List Nat)
  | [] => if cur = [] then [] else [cur]
  | b :: bs =>
    if isTokenSep b then
      (if cur = [] then [] else [cur]) ++
        (if isDocSep b then [sentinelTok] else []) ++ tokenizeAux [] bs
    else tokenizeAux (cur ++ [b]) bs

/-- The scanning loop of `read_file_by_tokens` over one chunk
(tokenizer.rs:59-76): emitted tokens (with sentinels) and the trailing
unterminated run. `run` plays the role of `data[token_start..token_end]`. -/
def rfbtScanAux (run : List Nat) : List Nat → List (List Nat) × List Nat
  | [] => ([], run)
  | b :: bs =>
    if isTokenSep b then
      let e := (if run = [] then [] else [run]) ++ (if isDocSep b then [sentinelTok] else [])
      let r := rfbtScanAux [] bs
      (e ++ r.1, r.2)
    else rfbtScanAux (run ++ [b]) bs

/-- `data.iter().position(is_token_separator)` (tokenizer.rs:48): index of
the first separator byte. -/
def findSepIdx : List Nat → Option Nat
  | [] => none
  | b :: bs => if isTokenSep b then some 0 else (findSepIdx bs).map (· + 1)

/-- One iteration of the `read_file_by_tokens` loop body on chunk `data`
with carried-over partial token `rest` (tokenizer.rs:44-82): the emitted
tokens and the new `rest`. -/
def processChunk (rest : List Nat) (data : List Nat) : List (List Nat) × List Nat :=
  if rest = [] then rfbtScanAux [] data
  else
    match findSepIdx data with
    | some pos =>
      -- tokenizer.rs:47-57: stitch `rest` with the bytes before the first
      -- separator, emit it, emit the sentinel when that separator is a newline,
      -- then scan the remainder of the chunk
      let tok := rest ++ data.take pos
      let sents := if isDocSep (data.getD pos 0) then [sentinelTok] else []
      let r := rfbtScanAux [] (data.drop (pos + 1))
      (tok :: (sents ++ r.1), r.2)
    | none =>
      -- no separator in the chunk: the scan emits nothing and the whole chunk
      -- is appended to `rest` (tokenizer.rs:78-80)
      ([], rest ++ data)

/-- `read_file_by_tokens` (tokenizer.rs:28-86) over the successive non-empty
chunks returned by `fill_buf`; at end of input the pending `rest` is emitted
if non-empty (tokenizer.rs:37-42). -/
def readFileByTokens : List (List Nat) → List Nat → List (List Nat)
  | [], rest => if rest = [] then [] else [rest]
  | data :: chunks, rest =>
    if data = [] then (if rest = [] then [] else [rest])
    else
      let r := processChunk rest data
      r.1 ++ readFileByTokens chunks r.2

/-! ### Specification-side token sequence, following the spec's words

"Each line terminator additionally yields one sentinel token immediately
following the content token (even for an empty line)": split the corpus into
lines at newline bytes, tokenize each line into maximal non-separator runs,
and put exactly one sentinel after each line that had a terminator. -/

/-- Maximal non-separator runs of one line, with accumulator. -/
def nonSepRunsAux (cur : List Nat) : List Nat → List (List Nat)
  | [] => if cur = [] then [] else [cur]
  | b :: bs =>
    if isTokenSep b then (if cur = [] then [] else [cur]) ++ nonSepRunsAux [] bs
    else nonSepRunsAux (cur ++ [b]) bs

def nonSepRuns (l : List Nat) : List (List Nat) := nonSepRunsAux [] l

/-- Split a byte list at newline bytes (the newline is dropped); always
returns one segment more than the number of newlines. -/
def splitNlAux (cur : List Nat) : List Nat → List (List Nat)
  | [] => [cur]
  | b :: bs => if b == 10 then cur :: splitNlAux [] bs else splitNlAux (cur ++ [b]) bs

def splitNl (l : List Nat) : List (List Nat) := splitNlAux [] l

/-- Interleave one sentinel between the token lists of consecutive lines
(one sentinel per line terminator, none after the final unterminated line). -/
def joinWithSentinel : List (List (List Nat)) → List (List Nat)
  | [] => []
  | [x] => x
  | x :: xs => x ++ sentinelTok :: joinWithSentinel xs

/-- Specification-side tokenization: per-line maximal non-separator runs with
exactly one sentinel per line terminator, in line order. -/
def specTokens (content : List Nat) : List (List Nat) :=
  joinWithSentinel ((splitNl content).map nonSepRuns)

/-! ### `FileTokenIterator` (tokenizer.rs:89-226) -/

def READ_BUFFER_SIZE : Nat := 8192

def MAX_TOKEN_LEN : Nat := 64

/-- State of a `FileTokenIterator`: `file` is the part of the file after the
current read position, `buf` is `read_buffer[start_pos..end_pos]`, `rest` the
carried partial token, `outputSeparator` the pending-sentinel flag. -/
structure FTI where
  file : List Nat
  buf : List Nat
  rest : List Nat
  outputSeparator : Bool
deriving DecidableEq

/-- `FileTokenIterator::new(file_name, offset)` (tokenizer.rs:114-127): open
and seek to `offset`. -/
def ftiNew (content : List Nat) (offset : Nat) : FTI :=
  { file := content.drop offset, buf := [], rest := [], outputSeparator := false }

/-- `FileTokenIterator::reset(offset)` (tokenizer.rs:130-137). -/
def ftiReset (content : List Nat) (_s : FTI) (offset : Nat) : FTI :=
  { file := content.drop offset, buf := [], rest := [], outputSeparator := false }

/-- Result of the pointer-walking scan of `read_token`
(tokenizer.rs:183-206): either a token was emitted (with the remaining
buffer and the doc-separator flag), or the buffer ran out leaving a trailing
run. -/
inductive ScanRes where
  | emit (tok : List Nat) (remaining : List Nat) (flag : Bool)
  | runout (trailing : List Nat) (flag : Bool)
deriving DecidableEq

/-- The `token_start`/`token_end` scan of `read_token` as a recursion; `run`
is `read_buffer[token_start..token_end]`, `flag` is `output_separator`. -/
def scanBufAux (run : List Nat) (flag : Bool) : List Nat → ScanRes
  | [] => .runout run flag
  | b :: bs =>
    if ¬ isTokenSep b then scanBufAux (run ++ [b]) flag bs
    else
      let flag' := flag || isDocSep b
      if run = [] then scanBufAux [] flag' bs
      else .emit run bs flag'

/-- tokenizer.rs:150-152: refill the read buffer when `start_pos == end_pos`
(read errors are swallowed by the source's `unwrap_or(0)` and hence
indistinguishable from end-of-file, so reads are modelled as pure). -/
def ftiRefill (s₀ : FTI) : FTI :=
  if s₀.buf.isEmpty then
    { s₀ with buf := s₀.file.take READ_BUFFER_SIZE,
              file := s₀.file.drop READ_BUFFER_SIZE }
  else s₀

/-- The `'readloop` of `read_token` (tokenizer.rs:148-224). One fuel unit per
loop iteration. -/
def readTokenLoop : Nat → FTI → Option (List Nat) × FTI
  | 0, s => (none, s)
  | fuel + 1, s₀ =>
    let s := ftiRefill s₀
    if s.buf.isEmpty then
      -- tokenizer.rs:153-159: read returned 0: flush `rest` or signal EOF
      if s.rest.isEmpty then (none, s)
      else (some (tokenOut s.rest), { s with rest := [] })
    else
      match (if s.rest.isEmpty then none else findSepIdx s.buf) with
      | some pos =>
        -- tokenizer.rs:164-181: stitch `rest` with bytes before the first
        -- separator and emit it
        (some (tokenOut (s.rest ++ s.buf.take pos)),
         { s with rest := [],
                  buf := s.buf.drop (pos + 1),
                  outputSeparator := s.outputSeparator || isDocSep (s.buf.getD pos 0) })
      | none =>
        match scanBufAux [] s.outputSeparator s.buf with
        | .emit tok remaining flag =>
          -- tokenizer.rs:203-205
          (some (tokenOut tok), { s with buf := remaining, outputSeparator := flag })
        | .runout trailing flag =>
          if trailing = [] then
            -- tokenizer.rs:221-223: force a read on the next iteration
            readTokenLoop fuel { s with buf := [], outputSeparator := flag }
          else
            -- tokenizer.rs:208-218: move the trailing run into `rest`;
            -- keep reading while `rest` is shorter than MAX_TOKEN_LEN,
            -- otherwise forcibly emit it
            let rest' := s.rest ++ trailing
            if rest'.length < MAX_TOKEN_LEN then
              readTokenLoop fuel { s with buf := [], rest := rest', outputSeparator := flag }
            else
              (some (tokenOut rest'),
               { s with buf := [], rest := [], outputSeparator := flag })

/-- `FileTokenIterator::read_token` (tokenizer.rs:140-225). -/
def readToken (fuel : Nat) (s : FTI) : Option (List Nat) × FTI :=
  if s.outputSeparator then (some sentinelTok, { s with outputSeparator := false })
  else readTokenLoop fuel s

/-- Iterate `read_token` until it returns `None` (`Iterator::next`,
tokenizer.rs:98-103), collecting the emitted tokens. -/
def iterTokens : Nat → FTI → List (List Nat)
  | 0, _ => []
  | fuel + 1, s =>
    match readToken (fuel + 1) s with
    | (none, _) => []
    | (some t, s') => t :: iterTokens fuel s'

/-- All tokens of the iterator constructed at byte `offset` of `content`. -/
def iterTokensFrom (content : List Nat) (offset : Nat) (fuel : Nat) : List (List Nat) :=
  iterTokens fuel (ftiNew content offset)

/-! ## Vocabulary (src/vocab.rs)

The hash-table size (`VOCAB_HASH_TABLE_SIZE = 30_000_000` in the source) is
the parameter `T`, and Rust's `DefaultHasher` is the parameter
`hashW : List Nat → Nat`; `get_word_hash_index` reduces it modulo `T`
(vocab.rs:15-19). The unigram-table size (`UNIGRAM_TABLE_SIZE = 100_000_000`)
is the parameter `N`, and `f64::powf(count, 0.75)` is the abstract weight
`wpow : Nat → ℚ` (exact rational arithmetic in place of `f64`). -/

/-- Error/panic outcomes of the vocabulary operations. `outOfFuel` marks an
unbounded source loop that did not stop within the supplied fuel. -/
inductive VErr where
  | invalidLine   -- "Encountered invalid line" (vocab.rs:83-88)
  | invalidCount  -- "Count is not a positive integer" (vocab.rs:90-95)
  | emptyWord     -- "Word is empty" (vocab.rs:97-99)
  | emptyVocab    -- "Empty vocabulary" (vocab.rs:104-109)
  | assertFail    -- an assert! failed (panic)
  | oobPanic      -- an out-of-bounds index (panic)
  | remByZero     -- integer remainder by zero (panic)
  | ioFail        -- an I/O error (open/seek/read/write failure)
  | outOfFuel
deriving DecidableEq

/-- `WordInfo` (vocab.rs:7-10); `count` is a `u32` in the source. -/
structure WordInfo where
  word : List Nat
  count : Nat
deriving DecidableEq

/-- `Vocabulary` (vocab.rs:21-27). The hash table holds `-1` for a free slot
or a word index, as in the source. -/
structure Vocab where
  words : List WordInfo
  hashTable : List Int
  trainWords : Nat
  minReduce : Nat
  unigramTable : List Int
deriving DecidableEq

/-- `get_word_hash_index` (vocab.rs:15-19). -/
def getWordHashIndex (T : Nat) (hashW : List Nat → Nat) (w : List Nat) : Nat :=
  hashW w % T

/-- `Vocabulary::new` (vocab.rs:156-166). -/
def vocabNew (T : Nat) : Vocab :=
  { words := [], hashTable := List.replicate T (-1), trainWords := 0,
    minReduce := 1, unigramTable := [] }

/-- The probe loop of `get_word_indices` (vocab.rs:178-188), fuelled: walk
from `hidx` until a free slot (result word index `-1`) or a slot whose word
equals `w`. Result is `(hashtable_index, word_array_index)`. -/
def getWordIndicesAux (T : Nat) (v : Vocab) (w : List Nat) :
    Nat → Nat → Except VErr (Nat × Int)
  | 0, _ => .error .outOfFuel
  | fuel + 1, hidx =>
    match v.hashTable.get? hidx with
    | none => .error .oobPanic
    | some s =>
      if s = -1 then .ok (hidx, -1)
      else
        match v.words.get? s.toNat with
        | none => .error .oobPanic
        | some wi =>
          if wi.word = w then .ok (hidx, s)
          else getWordIndicesAux T v w fuel ((hidx + 1) % T)

/-- `get_word_indices` (vocab.rs:173-190); fuel `T` covers every terminating
run of the source loop. -/
def getWordIndices (T : Nat) (hashW : List Nat → Nat) (v : Vocab) (w : List Nat) :
    Except VErr (Nat × Int) :=
  getWordIndicesAux T v w T (getWordHashIndex T hashW w)

/-- The probe loop of `search_word` (vocab.rs:118-127), fuelled. -/
def searchWordAux (T : Nat) (v : Vocab) (w : List Nat) :
    Nat → Nat → Except VErr Int
  | 0, _ => .error .outOfFuel
  | fuel + 1, hidx =>
    match v.hashTable.get? hidx with
    | none => .error .oobPanic
    | some s =>
      if s = -1 then .ok (-1)
      else
        match v.words.get? s.toNat with
        | none => .error .oobPanic
        | some wi =>
          if wi.word = w then .ok s
          else searchWordAux T v w fuel ((hidx + 1) % T)

/-- `search_word` (vocab.rs:116-128): word index, or `-1` if not found. -/
def searchWord (T : Nat) (hashW : List Nat → Nat) (v : Vocab) (w : List Nat) :
    Except VErr Int :=
  searchWordAux T v w T (getWordHashIndex T hashW w)

/-- The free-slot probe of `rebuild_hashtable` (vocab.rs:233-235), fuelled. -/
def probeEmptyAux (T : Nat) (tbl : List Int) : Nat → Nat → Except VErr Nat
  | 0, _ => .error .outOfFuel
  | fuel + 1, hidx =>
    match tbl.get? hidx with
    | none => .error .oobPanic
    | some s =>
      if s ≠ -1 then probeEmptyAux T tbl fuel ((hidx + 1) % T)
      else .ok hidx

/-- The insertion loop of `rebuild_hashtable` (vocab.rs:231-238) over the
enumerated words, threading the table and the recomputed `train_words`. -/
def rebuildAux (T : Nat) (hashW : List Nat → Nat) :
    List (Nat × WordInfo) → List Int → Nat → Except VErr (List Int × Nat)
  | [], tbl, tw => .ok (tbl, tw)
  | (widx, wi) :: rest, tbl, tw => do
    let hidx ← probeEmptyAux T tbl T (getWordHashIndex T hashW wi.word)
    rebuildAux T hashW rest (tbl.set hidx (Int.ofNat widx)) (tw + wi.count)

/-- `rebuild_hashtable` (vocab.rs:227-239). -/
def rebuildHashtable (T : Nat) (hashW : List Nat → Nat) (v : Vocab) :
    Except VErr Vocab := do
  let r ← rebuildAux T hashW v.words.enum (List.replicate T (-1)) 0
  pure { v with hashTable := r.1, trainWords := r.2 }

/-- The inner `while last > idx && words[last].count <= min_reduce` loop of
`reduce_vocab` (vocab.rs:251-253), fuelled by `last` itself. -/
def reduceLastAux (words : List WordInfo) (minReduce : Nat) (idx : Nat) :
    Nat → Nat → Nat
  | 0, last => last
  | fuel + 1, last =>
    if idx < last ∧ (words.getD last ⟨[], 0⟩).count ≤ minReduce then
      reduceLastAux words minReduce idx fuel (last - 1)
    else last

/-- `swap_remove(idx)` on a list: replace element `idx` with the final
element and drop the final element. -/
def swapRemove (l : List WordInfo) (idx : Nat) : List WordInfo :=
  (l.set idx (l.getD (l.length - 1) ⟨[], 0⟩)).take (l.length - 1)

/-- The outer loop of `reduce_vocab` (vocab.rs:242-260), fuelled: drop every
entry of index ≥ 1 whose count is ≤ `min_reduce`. -/
def reduceLoopAux (minReduce : Nat) : Nat → Nat → List WordInfo →
    Except VErr (List WordInfo)
  | 0, _, _ => .error .outOfFuel
  | fuel + 1, idx, words =>
    if idx ≥ words.length then .ok words
    else
      match words.get? idx with
      | none => .error .oobPanic
      | some wi =>
        if wi.count ≤ minReduce then
          let last := reduceLastAux words minReduce idx words.length (words.length - 1)
          reduceLoopAux minReduce fuel idx (swapRemove (words.take (last + 1)) idx)
        else reduceLoopAux minReduce fuel (idx + 1) words

/-- `reduce_vocab` (vocab.rs:241-263): prune, bump `min_reduce`, rebuild. -/
def reduceVocab (T : Nat) (hashW : List Nat → Nat) (v : Vocab) :
    Except VErr Vocab := do
  let ws ← reduceLoopAux v.minReduce (2 * v.words.length + 2) 1 v.words
  rebuildHashtable T hashW { v with words := ws, minReduce := v.minReduce + 1 }

/-- `add_word` (vocab.rs:192-210). The returned word index is unused by the
caller (`learn_vocabulary_from_training_file` discards it), so only the new
vocabulary is returned. The pruning trigger
`words.len() as f64 > 0.7 * VOCAB_HASH_TABLE_SIZE as f64` is modelled with
exact arithmetic as `10 * len > 7 * T`. -/
def addWord (T : Nat) (hashW : List Nat → Nat) (v : Vocab) (w : List Nat) :
    Except VErr Vocab := do
  let hw ← getWordIndices T hashW v w
  let v ←
    if hw.2 = -1 then
      pure { v with words := v.words ++ [⟨w, 1⟩],
                    hashTable := v.hashTable.set hw.1 (Int.ofNat v.words.length) }
    else
      match v.words.get? hw.2.toNat with
      | none => .error .oobPanic
      | some wi =>
        pure { v with words := v.words.set hw.2.toNat ⟨wi.word, wi.count + 1⟩ }
  let v := { v with trainWords := v.trainWords + 1 }
  if 10 * v.words.length > 7 * T then reduceVocab T hashW v else pure v

/-- `add_word_with_count` (vocab.rs:212-225): `assert!(word_idx == -1)`
panics when the word is already present; the merge branch after the assert
is dead code. -/
def addWordWithCount (T : Nat) (hashW : List Nat → Nat) (v : Vocab)
    (w : List Nat) (count : Nat) : Except VErr Vocab := do
  let hw ← getWordIndices T hashW v w
  if hw.2 ≠ -1 then .error .assertFail
  else
    pure { v with words := v.words ++ [⟨w, count⟩],
                  hashTable := v.hashTable.set hw.1 (Int.ofNat v.words.length),
                  trainWords := v.trainWords + count }

/-- Sort key of `sort_vocab` (vocab.rs:266): `u32::MAX - count`, so that the
ascending sort is a descending sort by count. -/
def sortKey (wi : WordInfo) : Nat := 4294967295 - wi.count

/-- Stable insertion of one element into a list already sorted by `sortKey`
(ascending); `sort_by_key` is a stable ascending sort, which this realizes. -/
def insertByKey (x : WordInfo) : List WordInfo → List WordInfo
  | [] => [x]
  | y :: ys => if sortKey y ≤ sortKey x then y :: insertByKey x ys else x :: y :: ys

/-- Stable sort by `sortKey`, modelling `self.words[1..].sort_by_key`
(vocab.rs:268). -/
def sortByKey : List WordInfo → List WordInfo
  | [] => []
  | x :: xs => insertByKey x (sortByKey xs)

/-- The binary-search loop of `slice::partition_point` /
`binary_search_by`, as in Rust's standard library: the predicate plays
"Less", its negation "Greater". Fuel `len + 1` outlasts the halving. -/
def ppAux (words : List WordInfo) (pred : WordInfo → Bool) :
    Nat → Nat → Nat → Nat
  | 0, left, _ => left
  | fuel + 1, left, right =>
    if left < right then
      let mid := left + (right - left) / 2
      if pred (words.getD mid ⟨[], 0⟩) then ppAux words pred fuel (mid + 1) right
      else ppAux words pred fuel left mid
    else left

/-- `slice::partition_point` (used at vocab.rs:269-271). -/
def partitionPoint (words : List WordInfo) (pred : WordInfo → Bool) : Nat :=
  ppAux words pred (words.length + 1) 0 words.length

/-- `sort_vocab` (vocab.rs:265-274): stable-sort the words after index 0 by
descending count, truncate at the partition point of `count >= min_count`,
rebuild the hash table. Slicing `words[1..]` of an empty vector panics. -/
def sortVocab (T : Nat) (hashW : List Nat → Nat) (minCount : Nat) (v : Vocab) :
    Except VErr Vocab :=
  match v.words with
  | [] => .error .oobPanic
  | w0 :: tail =>
    let sorted := w0 :: sortByKey tail
    let idx := partitionPoint sorted (fun wi => decide (wi.count ≥ minCount))
    rebuildHashtable T hashW { v with words := sorted.take idx }

/-- One iteration of the `init_unigram_table` fill loop (vocab.rs:293-299)
on slot `idx`, acting on the state `(table-so-far, word_idx, frac)`. -/
def initUnigramStep (N : Nat) (wpow : Nat → ℚ) (words : List WordInfo)
    (trainWordsPow : ℚ) (st : List Int × Nat × ℚ) (idx : Nat) :
    Except VErr (List Int × Nat × ℚ) :=
  let tab := st.1 ++ [Int.ofNat st.2.1]
  if ((idx : ℚ) / (N : ℚ)) > st.2.2 then
    match words.get? (st.2.1 + 1) with
    | none => .error .oobPanic
    | some wi => .ok (tab, st.2.1 + 1, st.2.2 + wpow wi.count / trainWordsPow)
  else .ok (tab, st.2.1, st.2.2)

/-- `init_unigram_table` (vocab.rs:276-300): assert the vocabulary is
non-empty, then fill the `N`-slot table following the cumulative
`count^0.75` mass (exact rational arithmetic, abstract weight `wpow`). -/
def initUnigramTable (N : Nat) (wpow : Nat → ℚ) (v : Vocab) :
    Except VErr Vocab := do
  if v.words.isEmpty then .error .assertFail
  else
    let trainWordsPow : ℚ := v.words.foldl (fun acc wi => acc + wpow wi.count) 0
    let frac0 := wpow ((v.words.headD ⟨[], 0⟩).count) / trainWordsPow
    let r ← (List.range N).foldlM (initUnigramStep N wpow v.words trainWordsPow)
              ([], 0, frac0)
    pure { v with unigramTable := r.1 }

/-- `learn_vocabulary_from_training_file` (vocab.rs:30-48): add the sentinel
first (through the same `String::from_utf8`/`"<INV>"` conversion the
callback applies), then every token of the corpus, then sort/filter and
build the unigram table. The token stream is `tokenizeAux [] content`,
which `readFileByTokens` is proved to produce chunk-independently. -/
def learnVocabulary (T : Nat) (hashW : List Nat → Nat) (N : Nat)
    (wpow : Nat → ℚ) (content : List Nat) (minCount : Nat) :
    Except VErr Vocab := do
  let v := vocabNew T
  let v ← addWord T hashW v (tokenOut sentinelTok)
  let v ← (tokenizeAux [] content).foldlM (fun v t => addWord T hashW v (tokenOut t)) v
  let v ← sortVocab T hashW minCount v
  initUnigramTable N wpow v

/-- Decimal digits (bytes `'0'..'9'`) of `n`, as printed by `{}`. -/
def natDecimalAux : Nat → Nat → List Nat → List Nat
  | 0, _, acc => acc
  | fuel + 1, n, acc =>
    if n < 10 then (48 + n) :: acc
    else natDecimalAux fuel (n / 10) ((48 + n % 10) :: acc)

def natDecimal (n : Nat) : List Nat := natDecimalAux (n + 1) n []

/-- The lines written by `save_to_file` (vocab.rs:50-56): one line
`"<word> <count>\n"` per entry, in word order. -/
def wordsLines : List WordInfo → List Nat
  | [] => []
  | wi :: rest => wi.word ++ [32] ++ natDecimal wi.count ++ [10] ++ wordsLines rest

/-- `save_to_file` (vocab.rs:50-56), as the byte content written. -/
def saveToFile (v : Vocab) : List Nat := wordsLines v.words

/-- `u8::is_ascii_whitespace`: space, tab, newline, form feed, CR. -/
def isAsciiWs (b : Nat) : Bool := b == 32 || b == 9 || b == 10 || b == 12 || b == 13

/-- `slice::split` on ASCII whitespace (vocab.rs:74), empty parts kept. -/
def splitWsAux (cur : List Nat) : List Nat → List (List Nat)
  | [] => [cur]
  | b :: bs => if isAsciiWs b then cur :: splitWsAux [] bs else splitWsAux (cur ++ [b]) bs

def splitWs (l : List Nat) : List (List Nat) := splitWsAux [] l

/-- Split content into the lines read by `read_until(b'\n')`
(vocab.rs:68-72): each line keeps its terminating newline; a final
unterminated line is kept as-is. -/
def linesAux (cur : List Nat) : List Nat → List (List Nat)
  | [] => if cur = [] then [] else [cur]
  | b :: bs => if b == 10 then (cur ++ [10]) :: linesAux [] bs else linesAux (cur ++ [b]) bs

def linesOfContent (content : List Nat) : List (List Nat) := linesAux [] content

/-- `str::parse::<u32>`: optional leading `'+'`, then one or more ASCII
digits, value below `2^32`. -/
def parseU32 (s : List Nat) : Option Nat :=
  let s' := match s with | 43 :: rest => rest | _ => s
  if s' = [] then none
  else if s'.all (fun b => 48 ≤ b && b ≤ 57) then
    let val := s'.foldl (fun acc b => acc * 10 + (b - 48)) 0
    if val < 4294967296 then some val else none
  else none

/-- The line-reading loop of `load_from_file` (vocab.rs:68-102) over the
line list: parse `"<word> <count>"`, stop silently on a line with fewer
than two whitespace-split fields (the `else break`, vocab.rs:75-77), fail
on invalid UTF-8, a non-numeric count or an empty word, and insert with
`add_word_with_count`. -/
def loadLines (T : Nat) (hashW : List Nat → Nat) :
    Vocab → List (List Nat) → Except VErr Vocab
  | v, [] => .ok v
  | v, line :: rest =>
    let parts := splitWs line
    match parts.get? 0, parts.get? 1 with
    | some p1, some p2 =>
      if validUtf8 p1 && validUtf8 p2 then
        match parseU32 p2 with
        | none => .error .invalidCount
        | some count =>
          if p1 = [] then .error .emptyWord
          else do
            let v ← addWordWithCount T hashW v p1 count
            loadLines T hashW v rest
      else .error .invalidLine
    | _, _ => .ok v

/-- `load_from_file` (vocab.rs:63-113): read all lines, fail on an empty
resulting vocabulary, then build the unigram table. -/
def loadFromFile (T : Nat) (hashW : List Nat → Nat) (N : Nat) (wpow : Nat → ℚ)
    (content : List Nat) : Except VErr Vocab := do
  let v ← loadLines T hashW (vocabNew T) (linesOfContent content)
  if v.words.isEmpty then .error .emptyVocab
  else initUnigramTable N wpow v

/-- `i64 as usize`: two's-complement wrap into `0..2^64`. -/
def usizeOfI64 (s : Int) : Nat := (s.emod 18446744073709551616).toNat

/-- `usize as i32`: truncate to the low 32 bits, reinterpreted signed. -/
def i32OfUsize (n : Nat) : Int :=
  let m := n % 4294967296
  if m < 2147483648 then (m : Int) else (m : Int) - 4294967296

/-- The unigram-table slot picked by `sample_random_word`
(vocab.rs:146): `(rand_seed >> 16) as usize % unigram_table.len()`; the
`i64` arithmetic shift is floor division by `2^16`. -/
def unigramSlotIndex (v : Vocab) (randSeed : Int) : Nat :=
  usizeOfI64 (Int.fdiv randSeed 65536) % v.unigramTable.length

/-- `sample_random_word` (vocab.rs:145-154). Remainder by zero (an empty
unigram table, or the fallback with a single-entry vocabulary) is the panic
`remByZero`. -/
def sampleRandomWord (v : Vocab) (randSeed : Int) : Except VErr Int :=
  if v.unigramTable.length = 0 then .error .remByZero
  else
    let target := v.unigramTable.getD (unigramSlotIndex v randSeed) 0
    if target = 0 then
      if v.words.length - 1 = 0 then .error .remByZero
      else .ok (i32OfUsize (usizeOfI64 randSeed % (v.words.length - 1) + 1))
    else .ok target

/-! ## Hash-table well-formedness notions (for src/vocab.rs theorems) -/

/-- Linear-probe reachability: starting the probe at `hashW-value `h` (the
probe positions are `(h + k) % T`), some step `k < T` holds word index
`widx` and no earlier step is a free slot. -/
def ChainTo (T : Nat) (tbl : List Int) (h : Nat) (widx : Nat) : Prop :=
  ∃ k, k < T ∧ tbl.get? ((h + k) % T) = some (Int.ofNat widx) ∧
    ∀ j < k, ∃ s, tbl.get? ((h + j) % T) = some s ∧ s ≠ -1

/-- Well-formedness of a vocabulary's open-addressed hash table: the table
has the fixed size `T`, every occupied slot holds a valid word index, every
word is probe-reachable from its hash, and the occupied-slot count is
bounded by the word count. -/
def HashInv (T : Nat) (hashW : List Nat → Nat) (v : Vocab) : Prop :=
  v.hashTable.length = T ∧
  (∀ i s, v.hashTable.get? i = some s → s ≠ -1 →
     ∃ widx, s = Int.ofNat widx ∧ widx < v.words.length) ∧
  (∀ widx, widx < v.words.length →
     ChainTo T v.hashTable (hashW ((v.words.getD widx ⟨[], 0⟩).word)) widx) ∧
  v.hashTable.countP (fun s => decide (s ≠ -1)) ≤ v.words.length

/-- A vocabulary entry that `save_to_file` serializes losslessly: non-empty,
whitespace-free, valid UTF-8 word and a `u32` count. -/
def GoodWord (wi : WordInfo) : Prop :=
  wi.word ≠ [] ∧ (∀ b ∈ wi.word, isAsciiWs b = false) ∧
  validUtf8 wi.word = true ∧ wi.count < 4294967296

/-! ## Training-engine control skeleton (src/nnet.rs)

The claims about `train_model_thread` concern its control flow: sentence
filling, the end-of-epoch transition and the loop exit. The per-row `f32`
matrix updates touch none of the control state, so they are not modelled;
word resolution `vocab.search_word` is the abstract `searchF`. -/

def MAX_SENTENCE_LENGTH : Nat := 1024

/-- Thread-local state of `train_model_thread` (nnet.rs:157-177).
`sentence` is the filled prefix `sentence[0..sentence_length]` of the
source's fixed array; `localIter` is the `u64` `local_iter` (its wrap at 0
is not modelled; the theorems assume at least one remaining epoch). -/
structure ThreadState where
  fi : FTI
  eofReached : Bool
  wordCount : Nat
  lastWordCount : Nat
  sentence : List Int
  sentenceLength : Nat
  sentencePosition : Nat
  localIter : Nat
deriving DecidableEq

/-- Static data of one worker: the training-file bytes, the thread's
starting byte offset `file_size / num_threads * thread_id` (nnet.rs:157),
the vocabulary size, `vocab.train_words()`, `num_threads`, and the word
resolution function standing for `vocab.search_word`. -/
structure ThreadCfg where
  content : List Nat
  offset : Nat
  vocabSize : Nat
  trainWords : Nat
  numThreads : Nat
  searchF : List Nat → Int

/-- Fuel that outlasts any terminating run of the `read_token` loop on the
iterator state `s`. -/
def ftiFuel (s : FTI) : Nat := 2 * s.file.length + s.buf.length + s.rest.length + 8

/-- The sentence-filling loop of `train_model_thread` (nnet.rs:216-244):
read tokens, skip unknown or out-of-range words, count known words, stop at
a sentinel (discarding it when the sentence is still empty) or at the
`MAX_SENTENCE_LENGTH` cap, flag end-of-file on `None`. -/
def fillSentence (cfg : ThreadCfg) : Nat → ThreadState → ThreadState
  | 0, s => s
  | fuel + 1, s =>
    match readToken (ftiFuel s.fi) s.fi with
    | (none, fi') => { s with fi := fi', eofReached := true }
    | (some t, fi') =>
      let s := { s with fi := fi' }
      let idx := cfg.searchF t
      if idx < 0 then fillSentence cfg fuel s
      else if cfg.vocabSize ≤ idx.toNat then fillSentence cfg fuel s
      else
        let s := { s with wordCount := s.wordCount + 1 }
        if idx = 0 then
          if s.sentenceLength = 0 then fillSentence cfg fuel s else s
        else
          let s := { s with sentence := s.sentence ++ [idx],
                            sentenceLength := s.sentenceLength + 1 }
          if s.sentenceLength > MAX_SENTENCE_LENGTH then s
          else fillSentence cfg fuel { s with sentencePosition := 0 }

/-- Fuel that outlasts any terminating run of the filling loop. -/
def fillFuel (s : ThreadState) : Nat := 2 * ftiFuel s.fi + 4

/-- The progress block (nnet.rs:182-212): when more than 10000 words were
processed since the last update, publish them (`last_word_count` catches
up); the shared atomic counter, printing and the `f32` learning rate do not
feed back into control flow and are not modelled. -/
def progressUpdate (s : ThreadState) : ThreadState :=
  if s.wordCount - s.lastWordCount > 10000 then { s with lastWordCount := s.wordCount }
  else s

/-- Retrieve the next sentence when the buffer is empty (nnet.rs:215-245). -/
def maybeFill (cfg : ThreadCfg) (s : ThreadState) : ThreadState :=
  if s.sentenceLength = 0 then fillSentence cfg (fillFuel s) s else s

/-- The end-of-epoch condition (nnet.rs:247-248):
`(sentence_length == 0 && eof_reached) || (word_count > train_words / num_threads)`. -/
def epochBoundary (cfg : ThreadCfg) (s : ThreadState) : Bool :=
  (s.sentenceLength == 0 && s.eofReached) ||
    decide (s.wordCount > cfg.trainWords / cfg.numThreads)

/-- The state after the epoch transition (nnet.rs:250-260): decrement
`local_iter`, zero the word counts and the sentence buffer, reset the
tokenizer to the thread's original starting offset, clear `eof_reached`. -/
def epochReset (cfg : ThreadCfg) (s : ThreadState) : ThreadState :=
  { s with localIter := s.localIter - 1,
           wordCount := 0,
           lastWordCount := 0,
           sentenceLength := 0,
           sentence := [],
           fi := ftiReset cfg.content s.fi cfg.offset,
           eofReached := false }

/-- Advancing past the processed word (nnet.rs:432-440): the neural-net
update (nnet.rs:263-430) mutates no control state; `sentence_position`
advances and the sentence is dropped once exhausted. -/
def processAdvance (s : ThreadState) : ThreadState :=
  let s := { s with sentencePosition := s.sentencePosition + 1 }
  if s.sentencePosition ≥ s.sentenceLength then
    { s with sentenceLength := 0, sentence := [] }
  else s

/-- The `'thread_loop` of `train_model_thread` (nnet.rs:179-441), fuelled;
`.ok` carries the state at the `break 'thread_loop`. -/
def threadLoop (cfg : ThreadCfg) : Nat → ThreadState → Except VErr ThreadState
  | 0, _ => .error .outOfFuel
  | fuel + 1, s =>
    let s := progressUpdate s
    let s := maybeFill cfg s
    if epochBoundary cfg s then
      let li := s.localIter - 1
      if li = 0 then .ok { s with localIter := li }
      else threadLoop cfg fuel (epochReset cfg s)
    else threadLoop cfg fuel (processAdvance s)

/-- Initial thread state (nnet.rs:157-177): tokenizer opened at the thread's
offset, counters zeroed, `local_iter = params.total_iter`. -/
def threadInit (cfg : ThreadCfg) (totalIter : Nat) : ThreadState :=
  { fi := ftiNew cfg.content cfg.offset, eofReached := false, wordCount := 0,
    lastWordCount := 0, sentence := [], sentenceLength := 0,
    sentencePosition := 0, localIter := totalIter }

/-! ## `train` (src/main.rs:24-69)

The claim about `train` concerns the propagation of worker errors, so the
fallible sub-steps are the inputs of the model: the outcomes of
`metadata(..)`, vocabulary construction, the optional vocabulary save, each
worker's `train_model_thread` result, and `net.save`. -/

/-- The flags of `TrainigParams` that steer `train`'s control flow. -/
structure TrainFlags where
  saveVocabFileNonempty : Bool
  outputFileEmpty : Bool
deriving DecidableEq

/-- Outcomes of the fallible steps performed by `train`. -/
structure TrainEffects where
  metadataRes : Except VErr Nat
  vocabRes : Except VErr Unit
  saveVocabRes : Except VErr Unit
  threadResults : List (Except VErr Unit)
  netSaveRes : Except VErr Unit

/-- `train` (main.rs:24-69). Each worker is spawned as
`scope.spawn(move || train_model_thread(..))` (main.rs:63): the returned
join handle carrying the worker's `Result` is dropped, `thread::scope` joins
the threads propagating only panics, and control proceeds to `net.save`
(main.rs:67); `eff.threadResults` is therefore never consulted. -/
def trainRun (p : TrainFlags) (eff : TrainEffects) : Except VErr Unit := do
  let _ ← eff.metadataRes
  let _ ← eff.vocabRes
  let _ ← if p.saveVocabFileNonempty then eff.saveVocabRes else pure ()
  if p.outputFileEmpty then pure ()
  else eff.netSaveRes

end W2V

namespace W2V

/-- Decidable equality of `Except` results, for concrete evaluations. -/
instance exceptDecEq {ε α : Type} [DecidableEq ε] [DecidableEq α] :
    DecidableEq (Except ε α)
  | .error e, .error f =>
    if h : e = f then .isTrue (by rw [h]) else .isFalse (fun hc => h (by injection hc))
  | .error _, .ok _ => .isFalse (fun hc => Except.noConfusion hc)
  | .ok _, .error _ => .isFalse (fun hc => Except.noConfusion hc)
  | .ok a, .ok b =>
    if h : a = b then .isTrue (by rw [h]) else .isFalse (fun hc => h (by injection hc))

/-! ## Theorems -/

/-! ### Claim C1 — `train` and worker-thread failures (src/main.rs:55-68) -/

/-- Claim C1 (evaluation at the failing input): a worker thread's
`train_model_thread` result is an I/O error, every other step succeeds, and
`train` nevertheless completes with `Ok` — the spawned workers' `Result`
values are dropped at main.rs:63, so the training run does not fail and the
input-embedding matrix is serialized. -/
theorem claimC1_train_drops_worker_failure :
    trainRun { saveVocabFileNonempty := false, outputFileEmpty := false }
      { metadataRes := .ok 0, vocabRes := .ok (), saveVocabRes := .ok (),
        threadResults := [.error .ioFail], netSaveRes := .ok () } = .ok () := rfl

/-! ### Claim C8 — `sample_random_word` (src/vocab.rs:145-154) -/

/-- Claim C8: for every vocabulary with at least two entries and every seed,
`sample_random_word` maps the seed to a slot of the unigram table and
returns that slot's word ID, except that when the slot holds the sentinel
word ID 0 it instead returns a uniformly distributed non-sentinel word ID in
`[1, vocab_size)` (namely `seed as usize % (len - 1) + 1`); consequently it
never returns the sentinel word ID 0. The bound `words.length ≤ 2^31`
reflects the `as i32` cast; the source keeps the vocabulary far below it. -/
theorem claimC8_sample_random_word (v : Vocab) (seed : Int)
    (h2 : 2 ≤ v.words.length) (h31 : v.words.length ≤ 2147483648)
    (hu : 0 < v.unigramTable.length) :
    ∃ t : Int, sampleRandomWord v seed = .ok t ∧ t ≠ 0 ∧
      ((v.unigramTable.getD (unigramSlotIndex v seed) 0 ≠ 0 →
          t = v.unigramTable.getD (unigramSlotIndex v seed) 0) ∧
       (v.unigramTable.getD (unigramSlotIndex v seed) 0 = 0 →
          t = ((usizeOfI64 seed % (v.words.length - 1) + 1 : Nat) : Int) ∧
          1 ≤ t ∧ t < (v.words.length : Int))) := by
  have hr : usizeOfI64 seed % (v.words.length - 1) < v.words.length - 1 :=
    Nat.mod_lt _ (by omega)
  have heq : i32OfUsize (usizeOfI64 seed % (v.words.length - 1) + 1) =
      ((usizeOfI64 seed % (v.words.length - 1) + 1 : Nat) : Int) := by
    unfold i32OfUsize
    rw [Nat.mod_eq_of_lt (by omega), if_pos (by omega)]
  simp only [sampleRandomWord, unigramSlotIndex]
  rw [if_neg (by omega)]
  by_cases hs : v.unigramTable.getD
      (usizeOfI64 (Int.fdiv seed 65536) % v.unigramTable.length) 0 = 0
  · rw [if_pos hs, if_neg (by omega), heq]
    refine ⟨_, rfl, ?_, fun hns => absurd hs hns, fun _ => ⟨rfl, ?_, ?_⟩⟩
    · omega
    · omega
    · omega
  · rw [if_neg hs]
    exact ⟨v.unigramTable.getD (usizeOfI64 (Int.fdiv seed 65536) % v.unigramTable.length) 0,
      rfl, hs, fun _ => rfl, fun h => absurd h hs⟩

/-- Witness for C8 at a concrete two-entry vocabulary and seed 3. -/
theorem claimC8_witness :
    2 ≤ (Vocab.mk [⟨sentinelTok, 1⟩, ⟨[97], 1⟩] [] 0 1 [0, 1]).words.length ∧
    (Vocab.mk [⟨sentinelTok, 1⟩, ⟨[97], 1⟩] [] 0 1 [0, 1]).words.length ≤ 2147483648 ∧
    0 < (Vocab.mk [⟨sentinelTok, 1⟩, ⟨[97], 1⟩] [] 0 1 [0, 1]).unigramTable.length ∧
    ∃ t : Int,
      sampleRandomWord (Vocab.mk [⟨sentinelTok, 1⟩, ⟨[97], 1⟩] [] 0 1 [0, 1]) 3 = .ok t ∧
      t ≠ 0 ∧
      (((Vocab.mk [⟨sentinelTok, 1⟩, ⟨[97], 1⟩] [] 0 1 [0, 1]).unigramTable.getD
          (unigramSlotIndex (Vocab.mk [⟨sentinelTok, 1⟩, ⟨[97], 1⟩] [] 0 1 [0, 1]) 3) 0 ≠ 0 →
          t = (Vocab.mk [⟨sentinelTok, 1⟩, ⟨[97], 1⟩] [] 0 1 [0, 1]).unigramTable.getD
            (unigramSlotIndex (Vocab.mk [⟨sentinelTok, 1⟩, ⟨[97], 1⟩] [] 0 1 [0, 1]) 3) 0) ∧
       ((Vocab.mk [⟨sentinelTok, 1⟩, ⟨[97], 1⟩] [] 0 1 [0, 1]).unigramTable.getD
          (unigramSlotIndex (Vocab.mk [⟨sentinelTok, 1⟩, ⟨[97], 1⟩] [] 0 1 [0, 1]) 3) 0 = 0 →
          t = ((usizeOfI64 3 % ((Vocab.mk [⟨sentinelTok, 1⟩, ⟨[97], 1⟩] [] 0 1 [0, 1]).words.length - 1) + 1 : Nat) : Int) ∧
          1 ≤ t ∧
          t < ((Vocab.mk [⟨sentinelTok, 1⟩, ⟨[97], 1⟩] [] 0 1 [0, 1]).words.length : Int))) :=
  ⟨by decide, by decide, by decide,
   claimC8_sample_random_word (Vocab.mk [⟨sentinelTok, 1⟩, ⟨[97], 1⟩] [] 0 1 [0, 1]) 3
     (by decide) (by decide) (by decide)⟩


/-! ### Claim C10 — singleton vocabulary makes `sample_random_word` panic -/

/-- `List.getD` of a replicated list is the replicated element. -/
theorem getD_replicate (n : Nat) (a : Int) (i : Nat) :
    (List.replicate n a).getD i a = a := by
  induction n generalizing i with
  | zero => simp [List.getD]
  | succ n ih =>
    cases i with
    | zero => simp [List.replicate_succ, List.getD]
    | succ i => simp only [List.replicate_succ, List.getD, List.get?]; exact ih i

/-- When the cumulative fraction has reached `1`, the unigram fill loop
never advances the word index: every remaining slot receives word ID 0. -/
theorem initUnigramStep_saturated (N : Nat) (wpow : Nat → ℚ)
    (words : List WordInfo) (twp : ℚ) (l : List Nat)
    (hl : ∀ i ∈ l, i < N) (tab : List Int) :
    l.foldlM (initUnigramStep N wpow words twp) (tab, 0, (1 : ℚ)) =
      .ok (tab ++ List.replicate l.length 0, 0, (1 : ℚ)) := by
  induction l generalizing tab with
  | nil => simp [pure, Except.pure]
  | cons i l ih =>
    have hiN : (i : ℚ) / (N : ℚ) ≤ 1 := by
      have hN : 0 < N := Nat.lt_of_le_of_lt (Nat.zero_le i) (hl i (List.mem_cons_self i l))
      have : (i : ℚ) ≤ (N : ℚ) := by exact_mod_cast Nat.le_of_lt (hl i (List.mem_cons_self i l))
      rw [div_le_one (by exact_mod_cast hN)]
      exact this
    have hstep : initUnigramStep N wpow words twp (tab, 0, (1 : ℚ)) i =
        .ok (tab ++ [Int.ofNat 0], 0, (1 : ℚ)) := by
      unfold initUnigramStep
      rw [if_neg (not_lt.mpr hiN)]
    rw [List.foldlM_cons, hstep]
    show l.foldlM (initUnigramStep N wpow words twp) (tab ++ [Int.ofNat 0], 0, (1 : ℚ)) = _
    rw [ih (fun j hj => hl j (List.mem_cons_of_mem i hj)) (tab ++ [Int.ofNat 0])]
    simp [List.replicate_succ, List.append_assoc]

/-- Claim C10: `sample_random_word` is total only for vocabularies with at
least two entries: on the vocabulary holding the sentinel alone,
`init_unigram_table` fills every slot with word ID 0 (the cumulative
fraction starts at `wpow c / wpow c = 1`), so every call of
`sample_random_word` takes the fallback path and panics with a remainder by
zero in `seed % (vocab_size - 1)`. `wpow` stands for `count^0.75`, positive
on the sentinel's count. -/
theorem claimC10_sample_random_word_singleton_panics (N : Nat) (wpow : Nat → ℚ)
    (c : Nat) (seed : Int) (tbl : List Int) (tw mr : Nat) (ut : List Int)
    (hN : 0 < N) (hc : 0 < wpow c) :
    ∃ v' : Vocab,
      initUnigramTable N wpow (Vocab.mk [⟨sentinelTok, c⟩] tbl tw mr ut) = .ok v' ∧
      v'.unigramTable = List.replicate N 0 ∧
      sampleRandomWord v' seed = .error .remByZero := by
  have hfrac : wpow (WordInfo.mk sentinelTok c).count /
      ((0 : ℚ) + wpow (WordInfo.mk sentinelTok c).count) = 1 := by
    rw [zero_add]
    exact div_self hc.ne'
  refine ⟨Vocab.mk [⟨sentinelTok, c⟩] tbl tw mr (List.replicate N 0), ?_, rfl, ?_⟩
  · unfold initUnigramTable
    simp only [List.isEmpty, List.foldl, List.headD]
    rw [if_neg (by simp)]
    rw [hfrac]
    rw [initUnigramStep_saturated N wpow _ _ (List.range N)
      (fun j hj => List.mem_range.mp hj) []]
    simp
  · unfold sampleRandomWord
    rw [if_neg (by simp [List.length_replicate]; omega)]
    simp only [List.length_replicate]
    rw [getD_replicate]
    rw [if_pos rfl, if_pos (by simp)]

/-- Witness for C10 at `N = 3`, weight function `n ↦ n`, sentinel count 1,
seed 7. -/
theorem claimC10_witness :
    0 < 3 ∧ (0 : ℚ) < (fun n : Nat => (n : ℚ)) 1 ∧
    ∃ v' : Vocab,
      initUnigramTable 3 (fun n : Nat => (n : ℚ))
        (Vocab.mk [⟨sentinelTok, 1⟩] [] 0 1 []) = .ok v' ∧
      v'.unigramTable = List.replicate 3 0 ∧
      sampleRandomWord v' 7 = .error .remByZero :=
  ⟨by decide, by norm_num,
   claimC10_sample_random_word_singleton_panics 3 (fun n : Nat => (n : ℚ)) 1 7 [] 0 1 []
     (by decide) (by norm_num)⟩

/-! ### Claim C2 — sentinel placement of the tokenizer -/

/-- Unfolding equation of `tokenizeAux` on a cons. -/
theorem tokenizeAux_cons (cur : List Nat) (b : Nat) (bs : List Nat) :
    tokenizeAux cur (b :: bs) =
      if isTokenSep b then
        (if cur = [] then [] else [cur]) ++
          (if isDocSep b then [sentinelTok] else []) ++ tokenizeAux [] bs
      else tokenizeAux (cur ++ [b]) bs := rfl

/-- Unfolding equation of `rfbtScanAux` on a cons. -/
theorem rfbtScanAux_cons (run : List Nat) (b : Nat) (bs : List Nat) :
    rfbtScanAux run (b :: bs) =
      if isTokenSep b then
        (((if run = [] then [] else [run]) ++ (if isDocSep b then [sentinelTok] else [])) ++
           (rfbtScanAux [] bs).1,
         (rfbtScanAux [] bs).2)
      else rfbtScanAux (run ++ [b]) bs := rfl

/-- `splitNlAux` never returns the empty list. -/
theorem splitNlAux_ne_nil (bs : List Nat) (cur : List Nat) : splitNlAux cur bs ≠ [] := by
  induction bs generalizing cur with
  | nil => simp [splitNlAux]
  | cons b bs ih =>
    unfold splitNlAux
    split
    · simp
    · exact ih (cur ++ [b])

/-- The accumulator of `splitNlAux` only prefixes the first segment. -/
theorem splitNlAux_acc (bs : List Nat) : ∀ (cur h : List Nat) (t : List (List Nat)),
    splitNlAux [] bs = h :: t → splitNlAux cur bs = (cur ++ h) :: t := by
  induction bs with
  | nil =>
    intro cur h t hsplit
    unfold splitNlAux at hsplit ⊢
    cases hsplit
    simp
  | cons b bs ih =>
    intro cur h t hsplit
    unfold splitNlAux at hsplit ⊢
    by_cases hb : (b == 10) = true
    · rw [if_pos hb] at hsplit ⊢
      cases hsplit
      simp
    · rw [if_neg hb] at hsplit ⊢
      simp only [List.nil_append] at hsplit
      obtain ⟨h', t', hs'⟩ : ∃ h' t', splitNlAux ([] : List Nat) bs = h' :: t' := by
        cases hnil : splitNlAux ([] : List Nat) bs with
        | nil => exact absurd hnil (splitNlAux_ne_nil bs [])
        | cons x xs => exact ⟨x, xs, rfl⟩
      rw [ih [b] h' t' hs'] at hsplit
      rw [ih (cur ++ [b]) h' t' hs']
      injection hsplit with hh ht
      subst hh
      subst ht
      simp

/-- Prefixing the head block distributes over `joinWithSentinel`. -/
theorem joinWithSentinel_append_head (a x : List (List Nat))
    (xs : List (List (List Nat))) :
    joinWithSentinel ((a ++ x) :: xs) = a ++ joinWithSentinel (x :: xs) := by
  cases xs with
  | nil => rfl
  | cons y ys => simp [joinWithSentinel, List.append_assoc]

/-- A separator-free block only extends the pending token of `tokenizeAux`. -/
theorem tokenizeAux_no_sep (data : List Nat)
    (hns : ∀ b ∈ data, isTokenSep b = false) :
    ∀ rest future, tokenizeAux rest (data ++ future) = tokenizeAux (rest ++ data) future := by
  induction data with
  | nil => intro rest future; simp
  | cons b data ih =>
    intro rest future
    have hb : isTokenSep b = false := hns b (List.mem_cons_self b data)
    rw [List.cons_append, tokenizeAux_cons, if_neg (by simp [hb])]
    rw [ih (fun x hx => hns x (List.mem_cons_of_mem b hx)) (rest ++ [b]) future]
    simp

/-- The chunk scan of `read_file_by_tokens` refines `tokenizeAux`: the
emitted tokens come first and the trailing run is the new pending token. -/
theorem rfbtScanAux_spec (bs : List Nat) : ∀ run future,
    tokenizeAux run (bs ++ future) =
      (rfbtScanAux run bs).1 ++ tokenizeAux (rfbtScanAux run bs).2 future := by
  induction bs with
  | nil => intro run future; simp [rfbtScanAux]
  | cons b bs ih =>
    intro run future
    rw [List.cons_append, tokenizeAux_cons, rfbtScanAux_cons]
    by_cases hb : isTokenSep b = true
    · rw [if_pos hb, if_pos hb]
      rw [ih [] future]
      simp [List.append_assoc]
    · rw [if_neg hb, if_neg hb]
      exact ih (run ++ [b]) future

/-- When `position` finds no separator, the chunk is separator-free. -/
theorem findSepIdx_none (data : List Nat) : findSepIdx data = none →
    ∀ b ∈ data, isTokenSep b = false := by
  induction data with
  | nil => intro _ b hb; cases hb
  | cons b bs ih =>
    intro h x hx
    unfold findSepIdx at h
    by_cases hb : isTokenSep b = true
    · rw [if_pos hb] at h
      cases h
    · rw [if_neg hb] at h
      rcases List.mem_cons.mp hx with hxb | hxs
      · subst hxb
        simpa using hb
      · exact ih (by simpa using h) x hxs

/-- When `position` finds a separator, the chunk splits into a
separator-free prefix of that length, the separator byte, and a suffix. -/
theorem findSepIdx_some (data : List Nat) : ∀ pos, findSepIdx data = some pos →
    ∃ pre b post, data = pre ++ b :: post ∧ pre.length = pos ∧
      (∀ x ∈ pre, isTokenSep x = false) ∧ isTokenSep b = true := by
  induction data with
  | nil => intro pos h; cases h
  | cons b bs ih =>
    intro pos h
    unfold findSepIdx at h
    by_cases hb : isTokenSep b = true
    · rw [if_pos hb] at h
      injection h with h0
      exact ⟨[], b, bs, rfl, h0, fun x hx => (List.not_mem_nil x hx).elim, hb⟩
    · rw [if_neg hb] at h
      obtain ⟨p', hp', hpos⟩ := Option.map_eq_some'.mp h
      obtain ⟨pre, c, post, hdata, hlen, hpre, hc⟩ := ih p' hp'
      refine ⟨b :: pre, c, post, by rw [hdata]; rfl, by simp [hlen, hpos], ?_, hc⟩
      intro x hx
      rcases List.mem_cons.mp hx with hxb | hxs
      · subst hxb
        simpa using hb
      · exact hpre x hxs

/-- `take` at the length of a prefix returns that prefix. -/
theorem take_len_append (pre : List Nat) (b : Nat) (post : List Nat) :
    (pre ++ b :: post).take pre.length = pre := by
  induction pre with
  | nil => rfl
  | cons a pre ih => simp [ih]

/-- `drop` right after a prefix and one byte returns the suffix. -/
theorem drop_len_append (pre : List Nat) (b : Nat) (post : List Nat) :
    (pre ++ b :: post).drop (pre.length + 1) = post := by
  induction pre with
  | nil => rfl
  | cons a pre ih => simp [ih]

/-- Indexing right after a prefix returns the following byte. -/
theorem getD_len_append (pre : List Nat) (b : Nat) (post : List Nat) :
    (pre ++ b :: post).getD pre.length 0 = b := by
  induction pre with
  | nil => rfl
  | cons a pre ih => simpa [List.getD] using ih

/-- One chunk of the `read_file_by_tokens` loop refines `tokenizeAux`. -/
theorem processChunk_spec (rest data future : List Nat) :
    tokenizeAux rest (data ++ future) =
      (processChunk rest data).1 ++ tokenizeAux (processChunk rest data).2 future := by
  by_cases hrest : rest = []
  · subst hrest
    unfold processChunk
    rw [if_pos rfl]
    exact rfbtScanAux_spec data [] future
  · unfold processChunk
    rw [if_neg hrest]
    cases hfind : findSepIdx data with
    | none =>
      rw [tokenizeAux_no_sep data (findSepIdx_none data hfind) rest future]
      rfl
    | some pos =>
      obtain ⟨pre, b, post, hdata, hlen, hpre, hb⟩ := findSepIdx_some data pos hfind
      subst hdata
      subst hlen
      dsimp only
      rw [take_len_append, drop_len_append, getD_len_append]
      have h1 : (pre ++ b :: post) ++ future = pre ++ (b :: (post ++ future)) := by simp
      rw [h1, tokenizeAux_no_sep pre hpre rest (b :: (post ++ future))]
      rw [tokenizeAux_cons, if_pos hb, if_neg (by simp [hrest])]
      rw [rfbtScanAux_spec post [] future]
      by_cases hdoc : isDocSep b = true
      · rw [if_pos hdoc]
        simp [List.append_assoc]
      · rw [if_neg hdoc]
        simp [List.append_assoc]

/-- The chunked loop of `read_file_by_tokens` computes `tokenizeAux` of the
concatenated content, for any decomposition into the non-empty chunks that
`fill_buf` returns. -/
theorem readFileByTokens_join (chunks : List (List Nat)) :
    ∀ rest, (∀ c ∈ chunks, c ≠ []) →
    readFileByTokens chunks rest = tokenizeAux rest chunks.flatten := by
  induction chunks with
  | nil => intro rest _; rfl
  | cons data chunks ih =>
    intro rest h
    unfold readFileByTokens
    rw [if_neg (h data (List.mem_cons_self data chunks))]
    show (processChunk rest data).1 ++ readFileByTokens chunks (processChunk rest data).2 = _
    rw [ih _ (fun c hc => h c (List.mem_cons_of_mem _ hc))]
    rw [List.flatten_cons]
    exact (processChunk_spec rest data chunks.flatten).symm

/-- Unfolding equation of `nonSepRunsAux` on a cons. -/
theorem nonSepRunsAux_cons (cur : List Nat) (b : Nat) (bs : List Nat) :
    nonSepRunsAux cur (b :: bs) =
      if isTokenSep b then (if cur = [] then [] else [cur]) ++ nonSepRunsAux [] bs
      else nonSepRunsAux (cur ++ [b]) bs := rfl

/-- Unfolding equation of `joinWithSentinel` on two or more blocks. -/
theorem joinWithSentinel_cons₂ (x y : List (List Nat)) (ys : List (List (List Nat))) :
    joinWithSentinel (x :: y :: ys) = x ++ sentinelTok :: joinWithSentinel (y :: ys) := rfl

/-- `splitNl` always yields at least one segment. -/
theorem exists_splitNl (bs : List Nat) : ∃ h t, splitNl bs = h :: t := by
  cases hnil : splitNl bs with
  | nil => exact absurd hnil (splitNlAux_ne_nil bs [])
  | cons x xs => exact ⟨x, xs, rfl⟩

/-- `tokenizeAux` produces, line by line, the maximal non-separator runs of
each line followed by exactly one sentinel per line terminator. -/
theorem tokenizeAux_lines (bs : List Nat) : ∀ (cur h : List Nat) (t : List (List Nat)),
    splitNl bs = h :: t →
    tokenizeAux cur bs = joinWithSentinel (nonSepRunsAux cur h :: t.map nonSepRuns) := by
  induction bs with
  | nil =>
    intro cur h t hs
    have h2 : ([[]] : List (List Nat)) = h :: t := hs
    injection h2 with hh ht
    subst hh
    subst ht
    rfl
  | cons b bs ih =>
    intro cur h t hs
    obtain ⟨h', t', hs'⟩ := exists_splitNl bs
    by_cases hb10 : (b == 10) = true
    · have hsplit : splitNl (b :: bs) = [] :: splitNl bs := by
        show splitNlAux [] (b :: bs) = _
        unfold splitNlAux
        rw [if_pos hb10]
        rfl
      rw [hsplit, hs'] at hs
      injection hs with hh ht
      subst hh
      subst ht
      have hsep : isTokenSep b = true := by simp [isTokenSep, hb10]
      have hdoc : isDocSep b = true := hb10
      rw [tokenizeAux_cons, if_pos hsep, if_pos hdoc]
      rw [ih [] h' t' hs']
      rw [List.map_cons, joinWithSentinel_cons₂]
      simp [nonSepRuns, nonSepRunsAux]
    · have hsplit : splitNl (b :: bs) = (b :: h') :: t' := by
        show splitNlAux [] (b :: bs) = _
        unfold splitNlAux
        rw [if_neg hb10]
        simp only [List.nil_append]
        exact splitNlAux_acc bs [b] h' t' hs'
      rw [hsplit] at hs
      injection hs with hh ht
      subst hh
      subst ht
      by_cases hbsep : isTokenSep b = true
      · have hdoc : isDocSep b = false := by
          unfold isDocSep
          simpa using hb10
        rw [tokenizeAux_cons, if_pos hbsep,
            if_neg (show ¬ isDocSep b = true by simp [hdoc])]
        rw [ih [] h' t' hs']
        rw [nonSepRunsAux_cons, if_pos hbsep, joinWithSentinel_append_head]
        simp
      · rw [tokenizeAux_cons, if_neg hbsep]
        rw [ih (cur ++ [b]) h' t' hs']
        rw [nonSepRunsAux_cons, if_neg hbsep]

/-- The single-pass tokens equal the specification-side per-line tokens. -/
theorem tokenizeAux_eq_specTokens (content : List Nat) :
    tokenizeAux [] content = specTokens content := by
  obtain ⟨h, t, hs⟩ := exists_splitNl content
  rw [tokenizeAux_lines content [] h t hs]
  unfold specTokens
  rw [hs, List.map_cons]
  rfl

/-- Claim C2 (amended): for the callback tokenizer `read_file_by_tokens` —
the one the vocabulary learner uses — every input file (under any
decomposition into the non-empty chunks `fill_buf` returns) tokenizes to
exactly the per-line maximal non-separator runs with one sentinel per
line-terminator byte, emitted immediately after the content tokens of the
terminated line and before any token of the following line, one per line
even for empty lines; and the corpus `"a b\nc"` tokenizes to
`["a", "b", "</s>", "c"]` for both `read_file_by_tokens` and
`FileTokenIterator`. For `FileTokenIterator` the general positional claim
fails (see the counterexample): a sentinel for a newline read while no
content token is pending is emitted only after the next token, and a
sentinel pending at end of file is dropped. -/
theorem claimC2_sentinel_per_line (chunks : List (List Nat))
    (hch : ∀ c ∈ chunks, c ≠ []) :
    readFileByTokens chunks [] = specTokens chunks.flatten ∧
    tokenizeAux [] [97, 32, 98, 10, 99] = [[97], [98], sentinelTok, [99]] ∧
    iterTokensFrom [97, 32, 98, 10, 99] 0 9 = [[97], [98], sentinelTok, [99]] :=
  ⟨by rw [readFileByTokens_join chunks [] hch, tokenizeAux_eq_specTokens],
   by decide, by decide⟩

/-- Claim C2 counterexample: on the file `"\nb"` the `FileTokenIterator`
(cited by the claim alongside `read_file_by_tokens`) emits the content token
before the newline's sentinel — `["b", "</s>"]` where the claim requires the
sentinel before any token that follows the terminator, i.e.
`["</s>", "b"]` — and on `"\n\n"` it emits no sentinel at all although the
claim requires one per line terminator. -/
theorem claimC2_counterexample :
    iterTokensFrom [10, 98] 0 9 = [[98], sentinelTok] ∧
    iterTokensFrom [10, 10] 0 9 = [] := by decide

/-- Witness for C2 at the chunk decomposition `["a b", "\nc"]` of the
corpus `"a b\nc"`. -/
theorem claimC2_witness :
    (∀ c ∈ [[97, 32, 98], [10, 99]], c ≠ ([] : List Nat)) ∧
    (readFileByTokens [[97, 32, 98], [10, 99]] [] =
       specTokens ([[97, 32, 98], [10, 99]] : List (List Nat)).flatten ∧
     tokenizeAux [] [97, 32, 98, 10, 99] = [[97], [98], sentinelTok, [99]] ∧
     iterTokensFrom [97, 32, 98, 10, 99] 0 9 = [[97], [98], sentinelTok, [99]]) :=
  ⟨by decide, claimC2_sentinel_per_line [[97, 32, 98], [10, 99]] (by decide)⟩

/-! ### Claim C5 — token length bound of `FileTokenIterator` -/

/-- Unfolding equation of `scanBufAux` on a cons. -/
theorem scanBufAux_cons (run : List Nat) (flag : Bool) (b : Nat) (bs : List Nat) :
    scanBufAux run flag (b :: bs) =
      if ¬ isTokenSep b then scanBufAux (run ++ [b]) flag bs
      else if run = [] then scanBufAux [] (flag || isDocSep b) bs
      else .emit run bs (flag || isDocSep b) := rfl

/-- An emitted token and the remaining buffer fit inside the scanned input. -/
theorem scanBufAux_emit_len (bs : List Nat) : ∀ run flag tok rem flag',
    scanBufAux run flag bs = .emit tok rem flag' →
    tok.length + rem.length ≤ run.length + bs.length := by
  induction bs with
  | nil =>
    intro run flag tok rem flag' h
    cases h
  | cons b bs ih =>
    intro run flag tok rem flag' h
    rw [scanBufAux_cons] at h
    by_cases hbs : isTokenSep b = true
    · rw [if_neg (by simp [hbs])] at h
      by_cases hrun : run = []
      · rw [if_pos hrun] at h
        have := ih [] (flag || isDocSep b) tok rem flag' h
        simp at this
        simp only [List.length_cons]
        omega
      · rw [if_neg hrun] at h
        injection h with h1 h2 h3
        subst h1
        subst h2
        simp
    · rw [if_pos (by simp [Bool.not_eq_true] at hbs ⊢; exact hbs)] at h
      have := ih (run ++ [b]) flag tok rem flag' h
      simp at this
      simp only [List.length_cons]
      omega

/-- The trailing run left by the scan fits inside the scanned input. -/
theorem scanBufAux_runout_len (bs : List Nat) : ∀ run flag trailing flag',
    scanBufAux run flag bs = .runout trailing flag' →
    trailing.length ≤ run.length + bs.length := by
  induction bs with
  | nil =>
    intro run flag trailing flag' h
    injection h with h1 h2
    subst h1
    simp
  | cons b bs ih =>
    intro run flag trailing flag' h
    rw [scanBufAux_cons] at h
    by_cases hbs : isTokenSep b = true
    · rw [if_neg (by simp [hbs])] at h
      by_cases hrun : run = []
      · rw [if_pos hrun] at h
        have := ih [] (flag || isDocSep b) trailing flag' h
        simp at this
        simp only [List.length_cons]
        omega
      · rw [if_neg hrun] at h
        cases h
    · rw [if_pos (by simp [Bool.not_eq_true] at hbs ⊢; exact hbs)] at h
      have := ih (run ++ [b]) flag trailing flag' h
      simp at this
      simp only [List.length_cons]
      omega

/-- `vec_to_string_opt` does not lengthen a token beyond the bound (the
replacement `"<INV>"` has 5 bytes). -/
theorem tokenOut_length_le (t : List Nat) (n : Nat) (h5 : 5 ≤ n)
    (ht : t.length ≤ n) : (tokenOut t).length ≤ n := by
  unfold tokenOut
  split
  · exact ht
  · simpa [invTok] using h5

/-- The refill step keeps the pending token and bounds the buffer by
`READ_BUFFER_SIZE`. -/
theorem ftiRefill_facts (s : FTI) (h2 : s.buf.length ≤ READ_BUFFER_SIZE) :
    (ftiRefill s).rest = s.rest ∧ (ftiRefill s).buf.length ≤ READ_BUFFER_SIZE ∧
    (ftiRefill s).outputSeparator = s.outputSeparator := by
  unfold ftiRefill
  split
  · refine ⟨rfl, ?_, rfl⟩
    simp [List.length_take]
  · exact ⟨rfl, h2, rfl⟩

/-- Every token `read_token`'s loop emits has at most
`READ_BUFFER_SIZE + MAX_TOKEN_LEN - 1` bytes, and the loop preserves the
invariant `rest.length < MAX_TOKEN_LEN ∧ buf.length ≤ READ_BUFFER_SIZE`. -/
theorem readTokenLoop_bound : ∀ (fuel : Nat) (s : FTI),
    s.rest.length < MAX_TOKEN_LEN → s.buf.length ≤ READ_BUFFER_SIZE →
    ((readTokenLoop fuel s).2.rest.length < MAX_TOKEN_LEN ∧
     (readTokenLoop fuel s).2.buf.length ≤ READ_BUFFER_SIZE) ∧
    ∀ t, (readTokenLoop fuel s).1 = some t →
      t.length ≤ READ_BUFFER_SIZE + MAX_TOKEN_LEN - 1 := by
  intro fuel
  induction fuel with
  | zero =>
    intro s h1 h2
    exact ⟨⟨h1, h2⟩, fun t ht => by cases ht⟩
  | succ fuel ih =>
    intro s₀ h1 h2
    obtain ⟨hr1, hr2, _⟩ := ftiRefill_facts s₀ h2
    unfold readTokenLoop
    dsimp only
    by_cases hbe : (ftiRefill s₀).buf.isEmpty
    · rw [if_pos hbe]
      by_cases hre : (ftiRefill s₀).rest.isEmpty
      · rw [if_pos hre]
        refine ⟨⟨?_, hr2⟩, fun t ht => by cases ht⟩
        rw [hr1]
        exact h1
      · rw [if_neg hre]
        refine ⟨⟨by simpa [MAX_TOKEN_LEN] using Nat.zero_lt_succ 63, hr2⟩, fun t ht => ?_⟩
        injection ht with ht1
        subst ht1
        refine tokenOut_length_le _ _ (by simp [READ_BUFFER_SIZE, MAX_TOKEN_LEN]) ?_
        rw [hr1]
        omega
    · rw [if_neg hbe]
      cases hst : (if (ftiRefill s₀).rest.isEmpty then none
                   else findSepIdx (ftiRefill s₀).buf) with
      | some pos =>
        refine ⟨⟨by simpa [MAX_TOKEN_LEN] using Nat.zero_lt_succ 63, ?_⟩, fun t ht => ?_⟩
        · calc ((ftiRefill s₀).buf.drop (pos + 1)).length
              ≤ (ftiRefill s₀).buf.length := by simp [List.length_drop]
            _ ≤ READ_BUFFER_SIZE := hr2
        · injection ht with ht1
          subst ht1
          refine tokenOut_length_le _ _ (by simp [READ_BUFFER_SIZE, MAX_TOKEN_LEN]) ?_
          have hta : ((ftiRefill s₀).buf.take pos).length ≤ (ftiRefill s₀).buf.length := by
            simp [List.length_take]
          have hrl : (ftiRefill s₀).rest.length < MAX_TOKEN_LEN := by
            rw [hr1]
            exact h1
          simp only [List.length_append]
          unfold MAX_TOKEN_LEN at hrl
          unfold READ_BUFFER_SIZE MAX_TOKEN_LEN
          unfold READ_BUFFER_SIZE at hr2
          omega
      | none =>
        cases hscan : scanBufAux [] (ftiRefill s₀).outputSeparator (ftiRefill s₀).buf with
        | emit tok rem flag =>
          dsimp only
          have hlen := scanBufAux_emit_len _ _ _ _ _ _ hscan
          simp only [List.length_nil, Nat.zero_add] at hlen
          refine ⟨⟨by rw [hr1] at *; exact h1, ?_⟩, fun t ht => ?_⟩
          · unfold READ_BUFFER_SIZE at hr2 ⊢
            omega
          · injection ht with ht1
            subst ht1
            refine tokenOut_length_le _ _ (by simp [READ_BUFFER_SIZE, MAX_TOKEN_LEN]) ?_
            unfold READ_BUFFER_SIZE MAX_TOKEN_LEN
            unfold READ_BUFFER_SIZE at hr2
            omega
        | runout trailing flag =>
          dsimp only
          have hlen := scanBufAux_runout_len _ _ _ _ _ hscan
          simp only [List.length_nil, Nat.zero_add] at hlen
          by_cases htre : trailing = []
          · rw [if_pos htre]
            refine ih _ ?_ (by simp)
            rw [hr1] at *
            exact h1
          · rw [if_neg htre]
            by_cases hcap : ((ftiRefill s₀).rest ++ trailing).length < MAX_TOKEN_LEN
            · rw [if_pos hcap]
              exact ih _ hcap (by simp)
            · rw [if_neg hcap]
              refine ⟨⟨by simpa [MAX_TOKEN_LEN] using Nat.zero_lt_succ 63, by simp⟩,
                fun t ht => ?_⟩
              injection ht with ht1
              subst ht1
              refine tokenOut_length_le _ _ (by simp [READ_BUFFER_SIZE, MAX_TOKEN_LEN]) ?_
              have hrl : (ftiRefill s₀).rest.length < MAX_TOKEN_LEN := by
                rw [hr1]
                exact h1
              simp only [List.length_append]
              unfold MAX_TOKEN_LEN at hrl
              unfold READ_BUFFER_SIZE MAX_TOKEN_LEN
              unfold READ_BUFFER_SIZE at hr2
              omega

/-- `read_token` preserves the invariant and only emits bounded tokens
(the sentinel has 4 bytes). -/
theorem readToken_bound (fuel : Nat) (s : FTI)
    (h1 : s.rest.length < MAX_TOKEN_LEN) (h2 : s.buf.length ≤ READ_BUFFER_SIZE) :
    ((readToken fuel s).2.rest.length < MAX_TOKEN_LEN ∧
     (readToken fuel s).2.buf.length ≤ READ_BUFFER_SIZE) ∧
    ∀ t, (readToken fuel s).1 = some t →
      t.length ≤ READ_BUFFER_SIZE + MAX_TOKEN_LEN - 1 := by
  unfold readToken
  split
  · refine ⟨⟨h1, h2⟩, fun t ht => ?_⟩
    injection ht with ht1
    subst ht1
    simp [sentinelTok, READ_BUFFER_SIZE, MAX_TOKEN_LEN]
  · exact readTokenLoop_bound fuel s h1 h2

/-- Every token the iterator emits from an invariant state is bounded. -/
theorem iterTokens_bound : ∀ (fuel : Nat) (s : FTI),
    s.rest.length < MAX_TOKEN_LEN → s.buf.length ≤ READ_BUFFER_SIZE →
    ∀ t ∈ iterTokens fuel s, t.length ≤ READ_BUFFER_SIZE + MAX_TOKEN_LEN - 1 := by
  intro fuel
  induction fuel with
  | zero => intro s _ _ t ht; cases ht
  | succ fuel ih =>
    intro s h1 h2 t ht
    unfold iterTokens at ht
    obtain ⟨⟨hi1, hi2⟩, hemit⟩ := readToken_bound (fuel + 1) s h1 h2
    cases hrt : (readToken (fuel + 1) s) with
    | mk o s' =>
      rw [hrt] at ht hi1 hi2 hemit
      cases o with
      | none => cases ht
      | some tok =>
        rcases List.mem_cons.mp ht with h | h
        · subst h
          exact hemit t rfl
        · exact ih s' hi1 hi2 t h

/-- Claim C5 (amended): every token emitted by the `FileTokenIterator`, for
any file and starting offset, has byte length at most
`READ_BUFFER_SIZE + MAX_TOKEN_LEN - 1 = 8255`: the `MAX_TOKEN_LEN` cap only
forces emission of a pending token that straddles read-buffer boundaries
once it has at least `MAX_TOKEN_LEN` bytes (at its then-current length,
without losing subsequent bytes); it is not an upper bound on emitted token
length — a token contained in one read is emitted at its full length. -/
theorem claimC5_token_length_bound (content : List Nat) (offset fuel : Nat)
    (t : List Nat) (ht : t ∈ iterTokensFrom content offset fuel) :
    t.length ≤ READ_BUFFER_SIZE + MAX_TOKEN_LEN - 1 :=
  iterTokens_bound fuel (ftiNew content offset) (by simp [ftiNew, MAX_TOKEN_LEN])
    (by simp [ftiNew]) t ht

/-- Claim C5 counterexample: a 65-byte run terminated by a space inside a
single read is emitted as one 65-byte token, exceeding
`MAX_TOKEN_LEN = 64`; the claim's length cap does not hold. -/
theorem claimC5_counterexample :
    iterTokensFrom (List.replicate 65 97 ++ [32, 98]) 0 9 =
      [List.replicate 65 97, [98]] ∧
    MAX_TOKEN_LEN < (List.replicate 65 97).length := by decide

/-- Witness for C5 on the two-token file `"a b"`. -/
theorem claimC5_witness :
    [97] ∈ iterTokensFrom [97, 32, 98] 0 9 ∧
    ([97] : List Nat).length ≤ READ_BUFFER_SIZE + MAX_TOKEN_LEN - 1 :=
  ⟨by decide, claimC5_token_length_bound [97, 32, 98] 0 9 [97] (by decide)⟩

/-! ### Hash-table probe lemmas (src/vocab.rs) -/

/-- Inversion of `Except` bind on a success. -/
theorem except_bind_ok {α β : Type} (a : Except VErr α) (f : α → Except VErr β)
    (b : β) (h : a >>= f = .ok b) : ∃ x, a = .ok x ∧ f x = .ok b := by
  cases a with
  | ok x => exact ⟨x, rfl, h⟩
  | error e => cases h

/-- Probe-step arithmetic: one linear-probing step from position
`(h + j) % T` lands on `(h + (j + 1)) % T`. -/
theorem probeStep (T h j : Nat) : ((h + j) % T + 1) % T = (h + (j + 1)) % T := by
  rw [Nat.mod_add_mod]
  congr 1

/-- A membership pair of `List.enum` is an in-range index with its entry. -/
theorem mem_enum_spec (l : List WordInfo) : ∀ p ∈ l.enum,
    p.1 < l.length ∧ l.getD p.1 ⟨[], 0⟩ = p.2 := by
  intro p hp
  have h2 : l[p.1]? = some p.2 := List.mem_enum_iff_getElem?.mp hp
  have h1 : p.1 < l.length := by
    by_contra hge
    rw [List.getElem?_eq_none (by omega)] at h2
    cases h2
  refine ⟨h1, ?_⟩
  rw [List.getD_eq_getElem?_getD, h2]
  rfl

/-- Setting an occupied value into a free slot raises the occupied count by
one. -/
theorem countP_set_free (l : List Int) : ∀ (i : Nat) (a : Int),
    l.get? i = some (-1) → a ≠ -1 →
    (l.set i a).countP (fun s => decide (s ≠ -1)) =
      l.countP (fun s => decide (s ≠ -1)) + 1 := by
  induction l with
  | nil => intro i a h _; cases h
  | cons x xs ih =>
    intro i a h ha
    cases i with
    | zero =>
      injection h with h0
      subst h0
      simp [List.countP_cons, ha]
    | succ i =>
      have := ih i a h ha
      simp only [List.set, List.countP_cons]
      omega

/-- A table with fewer occupants than slots has a free slot. -/
theorem exists_free_slot (tbl : List Int) (T : Nat) (hlen : tbl.length = T)
    (hcount : tbl.countP (fun s => decide (s ≠ -1)) < T) :
    ∃ j, j < T ∧ tbl.get? j = some (-1) := by
  by_contra hno
  push_neg at hno
  have hall : ∀ s ∈ tbl, (fun s : Int => decide (s ≠ -1)) s = true := by
    intro s hs
    obtain ⟨⟨j, hj⟩, hget⟩ := List.mem_iff_get.mp hs
    have hq := hno j (by omega)
    have hsome : tbl.get? j = some s := by
      rw [List.get?_eq_get hj, hget]
    simp only [decide_eq_true_eq]
    intro hcontra
    subst hcontra
    exact hq hsome
  have := List.countP_eq_length.mpr hall
  omega

/-- Each free slot is reached by the cyclic probe within `T` steps. -/
theorem probe_reaches_free (T h₀ : Nat) (hT : 0 < T) (tbl : List Int)
    (hlen : tbl.length = T)
    (hcount : tbl.countP (fun s => decide (s ≠ -1)) < T) :
    ∃ k, k < T ∧ tbl.get? ((h₀ + k) % T) = some (-1) := by
  obtain ⟨j, hj, hget⟩ := exists_free_slot tbl T hlen hcount
  refine ⟨(j + T - h₀ % T) % T, Nat.mod_lt _ hT, ?_⟩
  have hh : h₀ % T < T := Nat.mod_lt _ hT
  have hsum : h₀ % T + (j + T - h₀ % T) = j + T := by omega
  have : (h₀ + (j + T - h₀ % T) % T) % T = j := by
    rw [← Nat.mod_add_mod, Nat.add_mod_mod, Nat.mod_add_mod, ← Nat.mod_add_mod, hsum,
        Nat.add_mod_right]
    exact Nat.mod_eq_of_lt hj
  rw [this]
  exact hget

/-- Unfolding equation of `searchWordAux` at positive fuel. -/
theorem searchWordAux_succ (T : Nat) (v : Vocab) (w : List Nat) (fuel hidx : Nat) :
    searchWordAux T v w (fuel + 1) hidx =
      match v.hashTable.get? hidx with
      | none => .error .oobPanic
      | some s =>
        if s = -1 then .ok (-1)
        else
          match v.words.get? s.toNat with
          | none => .error .oobPanic
          | some wi =>
            if wi.word = w then .ok s
            else searchWordAux T v w fuel ((hidx + 1) % T) := rfl

/-- Unfolding equation of `getWordIndicesAux` at positive fuel. -/
theorem getWordIndicesAux_succ (T : Nat) (v : Vocab) (w : List Nat) (fuel hidx : Nat) :
    getWordIndicesAux T v w (fuel + 1) hidx =
      match v.hashTable.get? hidx with
      | none => .error .oobPanic
      | some s =>
        if s = -1 then .ok (hidx, -1)
        else
          match v.words.get? s.toNat with
          | none => .error .oobPanic
          | some wi =>
            if wi.word = w then .ok (hidx, s)
            else getWordIndicesAux T v w fuel ((hidx + 1) % T) := rfl

/-- Unfolding equation of `probeEmptyAux` at positive fuel. -/
theorem probeEmptyAux_succ (T : Nat) (tbl : List Int) (fuel hidx : Nat) :
    probeEmptyAux T tbl (fuel + 1) hidx =
      match tbl.get? hidx with
      | none => .error .oobPanic
      | some s =>
        if s ≠ -1 then probeEmptyAux T tbl fuel ((hidx + 1) % T)
        else .ok hidx := rfl

/-- In-range `get?` returns the `getD` value. -/
theorem get?_getD (l : List WordInfo) : ∀ (i : Nat), i < l.length →
    l.get? i = some (l.getD i ⟨[], 0⟩) := by
  induction l with
  | nil => intro i h; cases h
  | cons x xs ih =>
    intro i h
    cases i with
    | zero => rfl
    | succ i => exact ih i (by simpa using h)

/-- The free-slot probe of `rebuild_hashtable` stops at the first free slot
along the probe sequence. -/
theorem probeEmptyAux_spec (T : Nat) (tbl : List Int) : ∀ (fuel h₀ p : Nat),
    probeEmptyAux T tbl fuel (h₀ % T) = .ok p →
    ∃ k, k < fuel ∧ p = (h₀ + k) % T ∧ tbl.get? p = some (-1) ∧
      ∀ j, j < k → ∃ s, tbl.get? ((h₀ + j) % T) = some s ∧ s ≠ -1 := by
  intro fuel
  induction fuel with
  | zero => intro h₀ p h; cases h
  | succ fuel ih =>
    intro h₀ p h
    rw [probeEmptyAux_succ] at h
    cases hget : tbl.get? (h₀ % T) with
    | none => rw [hget] at h; cases h
    | some s =>
      rw [hget] at h
      dsimp only at h
      by_cases hs : s = -1
      · subst hs
        rw [if_neg (show ¬ ((-1 : Int) ≠ -1) by simp)] at h
        injection h with hp
        subst hp
        refine ⟨0, by omega, by simp, by simpa using hget, fun j hj => by omega⟩
      · rw [if_pos hs] at h
        rw [Nat.mod_add_mod] at h
        obtain ⟨k, hk, hp, hfree, hchain⟩ := ih (h₀ + 1) p h
        refine ⟨k + 1, by omega, ?_, hfree, ?_⟩
        · rw [hp]
          congr 1
          omega
        · intro j hj
          cases j with
          | zero => exact ⟨s, by simpa using hget, hs⟩
          | succ j =>
            obtain ⟨s', hs', hne'⟩ := hchain j (by omega)
            refine ⟨s', ?_, hne'⟩
            rw [show h₀ + (j + 1) = h₀ + 1 + j by omega]
            exact hs'

/-- `search_word` finds a word that is probe-reachable in the table: the
result is a valid index whose entry holds that word. -/
theorem searchWordAux_finds (T : Nat) (v : Vocab) (w : List Nat)
    (hval : ∀ i s, v.hashTable.get? i = some s → s ≠ -1 →
      ∃ widx, s = Int.ofNat widx ∧ widx < v.words.length) :
    ∀ (k fuel h₀ widx : Nat), k < fuel →
    v.hashTable.get? ((h₀ + k) % T) = some (Int.ofNat widx) →
    (v.words.getD widx ⟨[], 0⟩).word = w →
    (∀ j, j < k → ∃ s, v.hashTable.get? ((h₀ + j) % T) = some s ∧ s ≠ -1) →
    ∃ r : Nat, r < v.words.length ∧ (v.words.getD r ⟨[], 0⟩).word = w ∧
      searchWordAux T v w fuel (h₀ % T) = .ok (Int.ofNat r) := by
  intro k
  induction k with
  | zero =>
    intro fuel h₀ widx hfuel hend hword _
    cases fuel with
    | zero => omega
    | succ fuel =>
      simp only [Nat.add_zero] at hend
      obtain ⟨widx', heq, hlt⟩ := hval _ _ hend (by simp)
      have hww : widx' = widx := (Int.ofNat.inj heq).symm
      subst hww
      refine ⟨widx', hlt, hword, ?_⟩
      rw [searchWordAux_succ, hend]
      dsimp only
      rw [if_neg (show ¬ (Int.ofNat widx' = -1) by simp)]
      rw [show ((Int.ofNat widx').toNat) = widx' from rfl]
      rw [get?_getD _ _ hlt]
      dsimp only
      rw [if_pos hword]
  | succ k ih =>
    intro fuel h₀ widx hfuel hend hword hchain
    cases fuel with
    | zero => omega
    | succ fuel =>
      obtain ⟨s0, hs0, hs0ne⟩ := hchain 0 (by omega)
      simp only [Nat.add_zero] at hs0
      obtain ⟨w0, hw0eq, hw0lt⟩ := hval _ _ hs0 hs0ne
      subst hw0eq
      by_cases hword0 : (v.words.getD w0 ⟨[], 0⟩).word = w
      · refine ⟨w0, hw0lt, hword0, ?_⟩
        rw [searchWordAux_succ, hs0]
        dsimp only
        rw [if_neg (show ¬ (Int.ofNat w0 = -1) by simp)]
        rw [show ((Int.ofNat w0).toNat) = w0 from rfl]
        rw [get?_getD _ _ hw0lt]
        dsimp only
        rw [if_pos hword0]
      · have hrec : searchWordAux T v w (fuel + 1) (h₀ % T) =
            searchWordAux T v w fuel ((h₀ + 1) % T) := by
          rw [searchWordAux_succ, hs0]
          dsimp only
          rw [if_neg (show ¬ (Int.ofNat w0 = -1) by simp)]
          rw [show ((Int.ofNat w0).toNat) = w0 from rfl]
          rw [get?_getD _ _ hw0lt]
          dsimp only
          rw [if_neg hword0]
          rw [Nat.mod_add_mod]
        rw [hrec]
        apply ih fuel (h₀ + 1) widx (by omega)
        · rw [show h₀ + 1 + k = h₀ + (k + 1) by omega]
          exact hend
        · exact hword
        · intro j hj
          obtain ⟨s', hs', hne'⟩ := hchain (j + 1) (by omega)
          refine ⟨s', ?_, hne'⟩
          rw [show h₀ + 1 + j = h₀ + (j + 1) by omega]
          exact hs'

/-- `get_word_indices` on a word that is probe-reachable returns a non-free
slot value (the stored word index). -/
theorem getWordIndicesAux_finds (T : Nat) (v : Vocab) (w : List Nat)
    (hval : ∀ i s, v.hashTable.get? i = some s → s ≠ -1 →
      ∃ widx, s = Int.ofNat widx ∧ widx < v.words.length) :
    ∀ (k fuel h₀ widx : Nat), k < fuel →
    v.hashTable.get? ((h₀ + k) % T) = some (Int.ofNat widx) →
    (v.words.getD widx ⟨[], 0⟩).word = w →
    (∀ j, j < k → ∃ s, v.hashTable.get? ((h₀ + j) % T) = some s ∧ s ≠ -1) →
    ∃ p r : Nat, getWordIndicesAux T v w fuel (h₀ % T) = .ok (p, Int.ofNat r) := by
  intro k
  induction k with
  | zero =>
    intro fuel h₀ widx hfuel hend hword _
    cases fuel with
    | zero => omega
    | succ fuel =>
      simp only [Nat.add_zero] at hend
      obtain ⟨widx', heq, hlt⟩ := hval _ _ hend (by simp)
      have hww : widx' = widx := (Int.ofNat.inj heq).symm
      subst hww
      refine ⟨h₀ % T, widx', ?_⟩
      rw [getWordIndicesAux_succ, hend]
      dsimp only
      rw [if_neg (show ¬ (Int.ofNat widx' = -1) by simp)]
      rw [show ((Int.ofNat widx').toNat) = widx' from rfl]
      rw [get?_getD _ _ hlt]
      dsimp only
      rw [if_pos hword]
  | succ k ih =>
    intro fuel h₀ widx hfuel hend hword hchain
    cases fuel with
    | zero => omega
    | succ fuel =>
      obtain ⟨s0, hs0, hs0ne⟩ := hchain 0 (by omega)
      simp only [Nat.add_zero] at hs0
      obtain ⟨w0, hw0eq, hw0lt⟩ := hval _ _ hs0 hs0ne
      subst hw0eq
      by_cases hword0 : (v.words.getD w0 ⟨[], 0⟩).word = w
      · refine ⟨h₀ % T, w0, ?_⟩
        rw [getWordIndicesAux_succ, hs0]
        dsimp only
        rw [if_neg (show ¬ (Int.ofNat w0 = -1) by simp)]
        rw [show ((Int.ofNat w0).toNat) = w0 from rfl]
        rw [get?_getD _ _ hw0lt]
        dsimp only
        rw [if_pos hword0]
      · have hrec : getWordIndicesAux T v w (fuel + 1) (h₀ % T) =
            getWordIndicesAux T v w fuel ((h₀ + 1) % T) := by
          rw [getWordIndicesAux_succ, hs0]
          dsimp only
          rw [if_neg (show ¬ (Int.ofNat w0 = -1) by simp)]
          rw [show ((Int.ofNat w0).toNat) = w0 from rfl]
          rw [get?_getD _ _ hw0lt]
          dsimp only
          rw [if_neg hword0]
          rw [Nat.mod_add_mod]
        rw [hrec]
        apply ih fuel (h₀ + 1) widx (by omega)
        · rw [show h₀ + 1 + k = h₀ + (k + 1) by omega]
          exact hend
        · exact hword
        · intro j hj
          obtain ⟨s', hs', hne'⟩ := hchain (j + 1) (by omega)
          refine ⟨s', ?_, hne'⟩
          rw [show h₀ + 1 + j = h₀ + (j + 1) by omega]
          exact hs'

/-- `get_word_indices` on a word that occurs nowhere in the vocabulary stops
at the first free slot of the probe sequence and reports word index -1. -/
theorem getWordIndicesAux_absent (T : Nat) (v : Vocab) (w : List Nat)
    (hT : 0 < T) (hlen : v.hashTable.length = T)
    (hval : ∀ i s, v.hashTable.get? i = some s → s ≠ -1 →
      ∃ widx, s = Int.ofNat widx ∧ widx < v.words.length)
    (habs : ∀ wi ∈ v.words, wi.word ≠ w) :
    ∀ (fuel h₀ : Nat),
    (∃ k₀, k₀ < fuel ∧ v.hashTable.get? ((h₀ + k₀) % T) = some (-1)) →
    ∃ k, k < fuel ∧ v.hashTable.get? ((h₀ + k) % T) = some (-1) ∧
      (∀ j, j < k → ∃ s, v.hashTable.get? ((h₀ + j) % T) = some s ∧ s ≠ -1) ∧
      getWordIndicesAux T v w fuel (h₀ % T) = .ok ((h₀ + k) % T, -1) := by
  intro fuel
  induction fuel with
  | zero =>
    intro h₀ hex
    obtain ⟨k₀, hk₀, _⟩ := hex
    omega
  | succ fuel ih =>
    intro h₀ hex
    have hpos : h₀ % T < v.hashTable.length := by rw [hlen]; exact Nat.mod_lt _ hT
    have hget : v.hashTable.get? (h₀ % T) = some (v.hashTable.get ⟨h₀ % T, hpos⟩) :=
      List.get?_eq_get hpos
    by_cases hs : v.hashTable.get ⟨h₀ % T, hpos⟩ = -1
    · refine ⟨0, by omega, ?_, fun j hj => by omega, ?_⟩
      · simp only [Nat.add_zero]
        rw [hget, hs]
      · rw [getWordIndicesAux_succ, hget]
        dsimp only
        rw [if_pos hs]
        simp
    · obtain ⟨w0, hw0eq, hw0lt⟩ := hval _ _ hget hs
      have hword0 : (v.words.getD w0 ⟨[], 0⟩).word ≠ w := by
        apply habs
        exact List.get?_mem (get?_getD _ _ hw0lt)
      have hrec : getWordIndicesAux T v w (fuel + 1) (h₀ % T) =
          getWordIndicesAux T v w fuel ((h₀ + 1) % T) := by
        rw [getWordIndicesAux_succ, hget, hw0eq]
        dsimp only
        rw [if_neg (show ¬ (Int.ofNat w0 = -1) by simp)]
        rw [show ((Int.ofNat w0).toNat) = w0 from rfl]
        rw [get?_getD _ _ hw0lt]
        dsimp only
        rw [if_neg hword0]
        rw [Nat.mod_add_mod]
      obtain ⟨k₀, hk₀, hfree₀⟩ := hex
      have hk₀ne : k₀ ≠ 0 := by
        intro h0
        subst h0
        simp only [Nat.add_zero] at hfree₀
        rw [hget] at hfree₀
        injection hfree₀ with hbad
        exact hs hbad
      obtain ⟨k₁, rfl⟩ : ∃ k₁, k₀ = k₁ + 1 := ⟨k₀ - 1, by omega⟩
      have hex' : ∃ k₀, k₀ < fuel ∧ v.hashTable.get? ((h₀ + 1 + k₀) % T) = some (-1) := by
        refine ⟨k₁, by omega, ?_⟩
        rw [show h₀ + 1 + k₁ = h₀ + (k₁ + 1) by omega]
        exact hfree₀
      obtain ⟨k, hk, hfree, hchain, hrun⟩ := ih (h₀ + 1) hex'
      refine ⟨k + 1, by omega, ?_, ?_, ?_⟩
      · rw [show h₀ + (k + 1) = h₀ + 1 + k by omega]
        exact hfree
      · intro j hj
        cases j with
        | zero =>
          refine ⟨v.hashTable.get ⟨h₀ % T, hpos⟩, ?_, hs⟩
          simpa using hget
        | succ j =>
          obtain ⟨s', hs', hne'⟩ := hchain j (by omega)
          refine ⟨s', ?_, hne'⟩
          rw [show h₀ + (j + 1) = h₀ + 1 + j by omega]
          exact hs'
      · rw [hrec, hrun]
        rw [show h₀ + 1 + k = h₀ + (k + 1) by omega]

/-- A probe chain to an occupied slot survives writing a non-free value into
a slot that was free. -/
theorem ChainTo_set_free (T : Nat) (tbl : List Int) (p : Nat) (a : Int)
    (h₀ widx : Nat) (hp : tbl.get? p = some (-1)) (ha : a ≠ -1)
    (h : ChainTo T tbl h₀ widx) : ChainTo T (tbl.set p a) h₀ widx := by
  obtain ⟨k, hk, hend, hchain⟩ := h
  refine ⟨k, hk, ?_, ?_⟩
  · have hne : p ≠ (h₀ + k) % T := by
      intro heq
      rw [heq, hend] at hp
      injection hp with hbad
      simp at hbad
    rw [List.get?_set_ne _ _ hne]
    exact hend
  · intro j hj
    obtain ⟨s, hs, hsne⟩ := hchain j hj
    have hne : p ≠ (h₀ + j) % T := by
      intro heq
      rw [heq, hs] at hp
      injection hp with hbad
      exact hsne hbad
    rw [List.get?_set_ne _ _ hne]
    exact ⟨s, hs, hsne⟩

/-- Writing a word index into the first free slot of its probe sequence
creates a probe chain to that slot. -/
theorem ChainTo_set_new (T : Nat) (tbl : List Int) (h₀ k widx : Nat)
    (hk : k < T) (hlen : tbl.length = T)
    (hp : tbl.get? ((h₀ + k) % T) = some (-1))
    (hchain : ∀ j, j < k → ∃ s, tbl.get? ((h₀ + j) % T) = some s ∧ s ≠ -1) :
    ChainTo T (tbl.set ((h₀ + k) % T) (Int.ofNat widx)) h₀ widx := by
  refine ⟨k, hk, ?_, ?_⟩
  · rw [List.get?_set_eq_of_lt]
    rw [hlen]
    exact Nat.mod_lt _ (by omega)
  · intro j hj
    obtain ⟨s, hs, hsne⟩ := hchain j hj
    have hne : (h₀ + k) % T ≠ (h₀ + j) % T := by
      intro heq
      rw [heq, hs] at hp
      injection hp with hbad
      exact hsne hbad
    rw [List.get?_set_ne _ _ hne]
    exact ⟨s, hs, hsne⟩

/-- `getD` of an append, inside the left list. -/
theorem getD_append_lt (l l' : List WordInfo) : ∀ (i : Nat), i < l.length →
    (l ++ l').getD i ⟨[], 0⟩ = l.getD i ⟨[], 0⟩ := by
  induction l with
  | nil => intro i h; cases h
  | cons x xs ih =>
    intro i h
    cases i with
    | zero => rfl
    | succ i => exact ih i (by simpa using h)

/-- `getD` of an appended singleton at the old length. -/
theorem getD_append_self (x : WordInfo) : ∀ (l : List WordInfo),
    (l ++ [x]).getD l.length ⟨[], 0⟩ = x := by
  intro l
  induction l with
  | nil => rfl
  | cons y ys ih => exact ih

/-- `add_word_with_count` on a word absent from a well-formed vocabulary
with spare capacity: it appends the word and preserves the hash-table
invariant. -/
theorem addWordWithCount_insert (T : Nat) (hashW : List Nat → Nat) (v : Vocab)
    (w : List Nat) (c : Nat) (hinv : HashInv T hashW v)
    (hlt : v.words.length < T) (habs : ∀ wi ∈ v.words, wi.word ≠ w) :
    ∃ v', addWordWithCount T hashW v w c = .ok v' ∧
      v'.words = v.words ++ [⟨w, c⟩] ∧
      v'.trainWords = v.trainWords + c ∧
      v'.minReduce = v.minReduce ∧ v'.unigramTable = v.unigramTable ∧
      HashInv T hashW v' := by
  obtain ⟨hlen, hval, hchains, hcount⟩ := hinv
  have hT : 0 < T := by omega
  have hfree := probe_reaches_free T (hashW w) hT v.hashTable hlen (by omega)
  obtain ⟨k, hk, hfree', hchain, hrun⟩ :=
    getWordIndicesAux_absent T v w hT hlen hval habs T (hashW w) hfree
  refine ⟨{ words := v.words ++ [⟨w, c⟩],
            hashTable := v.hashTable.set ((hashW w + k) % T) (Int.ofNat v.words.length),
            trainWords := v.trainWords + c, minReduce := v.minReduce,
            unigramTable := v.unigramTable }, ?_, rfl, rfl, rfl, rfl, ?_⟩
  · unfold addWordWithCount getWordIndices getWordHashIndex
    rw [hrun]
    simp only [bind, Except.bind]
    rw [if_neg (show ¬ ((((hashW w + k) % T, (-1 : Int)).2) ≠ -1) by simp)]
    simp [pure, Except.pure]
  · have hnewlen : (v.words ++ [(⟨w, c⟩ : WordInfo)]).length = v.words.length + 1 := by
      simp
    refine ⟨?_, ?_, ?_, ?_⟩
    · simpa using hlen
    · intro i s hget hs
      dsimp only at hget ⊢
      by_cases hi : i = (hashW w + k) % T
      · subst hi
        rw [List.get?_set_eq_of_lt _ (show (hashW w + k) % T < v.hashTable.length by rw [hlen]; exact Nat.mod_lt _ hT)] at hget
        injection hget with hgs
        refine ⟨v.words.length, hgs.symm, ?_⟩
        rw [hnewlen]
        omega
      · rw [List.get?_set_ne _ _ (fun h => hi h.symm)] at hget
        obtain ⟨widx, hw1, hw2⟩ := hval i s hget hs
        refine ⟨widx, hw1, ?_⟩
        rw [hnewlen]
        omega
    · intro widx hwidx
      dsimp only at hwidx ⊢
      rw [hnewlen] at hwidx
      by_cases hcase : widx < v.words.length
      · rw [getD_append_lt _ _ _ hcase]
        exact ChainTo_set_free T v.hashTable _ _ _ widx hfree' (by simp)
          (hchains widx hcase)
      · have hwe : widx = v.words.length := by omega
        subst hwe
        rw [getD_append_self]
        exact ChainTo_set_new T v.hashTable (hashW w) k v.words.length hk hlen
          hfree' hchain
    · dsimp only
      rw [countP_set_free _ _ _ hfree' (by simp), hnewlen]
      omega

/-- ASCII digit bytes are not whitespace. -/
theorem isAsciiWs_digit (b : Nat) (h1 : 48 ≤ b) (h2 : b ≤ 57) :
    isAsciiWs b = false := by
  simp only [isAsciiWs, Bool.or_eq_false_iff, beq_eq_false_iff_ne, ne_eq]
  omega

/-- Byte lists of plain ASCII are valid UTF-8. -/
theorem validUtf8_ascii : ∀ (l : List Nat), (∀ b ∈ l, b ≤ 127) →
    validUtf8 l = true := by
  intro l
  induction l with
  | nil => intro _; rfl
  | cons b bs ih =>
    intro h
    show validUtf8Go (bs.length + 1) (b :: bs) = true
    unfold validUtf8Go
    rw [if_pos (h b (by simp))]
    exact ih (fun x hx => h x (by simp [hx]))

/-- Unfolding equation of the decimal printer at positive fuel. -/
theorem natDecimalAux_succ (fuel n : Nat) (acc : List Nat) :
    natDecimalAux (fuel + 1) n acc =
      if n < 10 then (48 + n) :: acc
      else natDecimalAux fuel (n / 10) ((48 + n % 10) :: acc) := rfl

/-- The printer's accumulator is a suffix: enough fuel prints `n`'s digits
in front of it. -/
theorem natDecimalAux_spec (n : Nat) : ∀ (fuel : Nat) (acc : List Nat),
    n < fuel → natDecimalAux fuel n acc = natDecimal n ++ acc := by
  induction n using Nat.strong_induction_on with
  | _ n ih =>
    intro fuel acc hf
    cases fuel with
    | zero => omega
    | succ fuel =>
      rw [natDecimalAux_succ]
      by_cases h10 : n < 10
      · rw [if_pos h10]
        have : natDecimal n = [48 + n] := by
          show natDecimalAux (n + 1) n [] = [48 + n]
          rw [natDecimalAux_succ, if_pos h10]
        rw [this]
        rfl
      · rw [if_neg h10]
        have hdiv : n / 10 < n := Nat.div_lt_self (by omega) (by omega)
        rw [ih (n / 10) hdiv fuel _ (by omega)]
        have : natDecimal n = natDecimal (n / 10) ++ [48 + n % 10] := by
          show natDecimalAux (n + 1) n [] = _
          rw [natDecimalAux_succ, if_neg h10]
          rw [ih (n / 10) hdiv n _ (by omega)]
        rw [this]
        simp

/-- `natDecimal` of a one-digit number. -/
theorem natDecimal_small (n : Nat) (h : n < 10) : natDecimal n = [48 + n] := by
  show natDecimalAux (n + 1) n [] = [48 + n]
  rw [natDecimalAux_succ, if_pos h]

/-- `natDecimal` of a multi-digit number: digits of the quotient, then the
last digit. -/
theorem natDecimal_step (n : Nat) (h : 10 ≤ n) :
    natDecimal n = natDecimal (n / 10) ++ [48 + n % 10] := by
  show natDecimalAux (n + 1) n [] = _
  rw [natDecimalAux_succ, if_neg (by omega)]
  exact natDecimalAux_spec (n / 10) n _ (by
    have := Nat.div_lt_self (show 0 < n by omega) (show 1 < 10 by omega)
    omega)

/-- Every byte printed by `natDecimal` is an ASCII digit. -/
theorem natDecimal_digits (n : Nat) : ∀ b ∈ natDecimal n, 48 ≤ b ∧ b ≤ 57 := by
  induction n using Nat.strong_induction_on with
  | _ n ih =>
    by_cases h10 : n < 10
    · rw [natDecimal_small n h10]
      intro b hb
      simp at hb
      omega
    · rw [natDecimal_step n (by omega)]
      intro b hb
      rw [List.mem_append] at hb
      cases hb with
      | inl hb => exact ih (n / 10) (Nat.div_lt_self (by omega) (by omega)) b hb
      | inr hb =>
        simp at hb
        have : n % 10 < 10 := Nat.mod_lt _ (by omega)
        omega

/-- Folding the digits of `natDecimal n` as base-10 recovers `n`. -/
theorem natDecimal_val (n : Nat) :
    (natDecimal n).foldl (fun acc b => acc * 10 + (b - 48)) 0 = n := by
  induction n using Nat.strong_induction_on with
  | _ n ih =>
    by_cases h10 : n < 10
    · rw [natDecimal_small n h10]
      simp
    · rw [natDecimal_step n (by omega), List.foldl_append]
      rw [ih (n / 10) (Nat.div_lt_self (by omega) (by omega))]
      simp only [List.foldl_cons, List.foldl_nil]
      omega

/-- `natDecimal` never prints the empty string. -/
theorem natDecimal_ne_nil (n : Nat) : natDecimal n ≠ [] := by
  by_cases h10 : n < 10
  · rw [natDecimal_small n h10]
    simp
  · rw [natDecimal_step n (by omega)]
    simp

/-- Parsing the printed decimal of an in-range `u32` returns it. -/
theorem parseU32_natDecimal (n : Nat) (h : n < 4294967296) :
    parseU32 (natDecimal n) = some n := by
  obtain ⟨b, bs, hbs⟩ : ∃ b bs, natDecimal n = b :: bs := by
    cases hnd : natDecimal n with
    | nil => exact absurd hnd (natDecimal_ne_nil n)
    | cons b bs => exact ⟨b, bs, rfl⟩
  have hdig : ∀ x ∈ b :: bs, 48 ≤ x ∧ x ≤ 57 := by
    rw [← hbs]
    exact natDecimal_digits n
  obtain ⟨hb1, hb2⟩ := hdig b (by simp)
  unfold parseU32
  rw [hbs]
  have hmatch : (match b :: bs with | 43 :: rest => rest | x => b :: bs) = b :: bs := by
    split
    · next heq =>
      injection heq with h1 h2
      omega
    · rfl
  dsimp only
  rw [hmatch]
  rw [if_neg (by simp)]
  rw [if_pos (by
    rw [List.all_eq_true]
    intro x hx
    obtain ⟨hx1, hx2⟩ := hdig x hx
    simp only [Bool.and_eq_true, decide_eq_true_eq]
    omega)]
  rw [← hbs, natDecimal_val, if_pos h]

/-- Unfolding equation of `splitWsAux` on a cons. -/
theorem splitWsAux_cons (cur : List Nat) (b : Nat) (bs : List Nat) :
    splitWsAux cur (b :: bs) =
      if isAsciiWs b then cur :: splitWsAux [] bs
      else splitWsAux (cur ++ [b]) bs := rfl

/-- `splitWsAux` swallows a whitespace-free prefix into the current part. -/
theorem splitWsAux_no_ws : ∀ (a : List Nat), (∀ b ∈ a, isAsciiWs b = false) →
    ∀ (cur rest : List Nat),
    splitWsAux cur (a ++ rest) = splitWsAux (cur ++ a) rest := by
  intro a
  induction a with
  | nil => intro _ cur rest; simp
  | cons b bs ih =>
    intro h cur rest
    have hb : isAsciiWs b = false := h b (by simp)
    rw [List.cons_append, splitWsAux_cons, if_neg (by simp [hb])]
    rw [ih (fun x hx => h x (by simp [hx])) (cur ++ [b]) rest]
    congr 1
    simp

/-- `slice::split` of a saved vocabulary line: the word, the count digits,
and the empty part after the final newline. -/
theorem splitWs_good_line (w d : List Nat) (hw : ∀ b ∈ w, isAsciiWs b = false)
    (hd : ∀ b ∈ d, isAsciiWs b = false) :
    splitWs (w ++ [32] ++ d ++ [10]) = [w, d, []] := by
  show splitWsAux [] _ = _
  rw [show w ++ [32] ++ d ++ [10] = w ++ (32 :: (d ++ [10])) by simp]
  rw [splitWsAux_no_ws w hw [] (32 :: (d ++ [10]))]
  rw [List.nil_append, splitWsAux_cons, if_pos (by simp [isAsciiWs])]
  rw [splitWsAux_no_ws d hd [] [10], List.nil_append]
  rw [show ([10] : List Nat) = 10 :: [] from rfl]
  rw [splitWsAux_cons, if_pos (by simp [isAsciiWs])]
  rfl

/-- Unfolding equation of `linesAux` on a cons. -/
theorem linesAux_cons (cur : List Nat) (b : Nat) (bs : List Nat) :
    linesAux cur (b :: bs) =
      if b == 10 then (cur ++ [10]) :: linesAux [] bs
      else linesAux (cur ++ [b]) bs := rfl

/-- `read_until(10)` takes a newline-free prefix plus its terminator as one
line. -/
theorem linesAux_pre : ∀ (a : List Nat), (∀ b ∈ a, (b == 10) = false) →
    ∀ (cur rest : List Nat),
    linesAux cur (a ++ 10 :: rest) = (cur ++ a ++ [10]) :: linesAux [] rest := by
  intro a
  induction a with
  | nil =>
    intro _ cur rest
    rw [List.nil_append, linesAux_cons, if_pos (by simp)]
    simp
  | cons b bs ih =>
    intro h cur rest
    have hb : (b == 10) = false := h b (by simp)
    rw [List.cons_append, linesAux_cons, if_neg (by simp [hb])]
    rw [ih (fun x hx => h x (by simp [hx])) (cur ++ [b]) rest]
    congr 2
    simp

/-- Unfolding equation of `wordsLines` on a cons. -/
theorem wordsLines_cons (wi : WordInfo) (rest : List WordInfo) :
    wordsLines (wi :: rest) =
      wi.word ++ [32] ++ natDecimal wi.count ++ [10] ++ wordsLines rest := rfl

/-- Splitting saved vocabulary content into lines gives one line per word,
with any trailing bytes split separately. -/
theorem linesAux_wordsLines : ∀ (ws : List WordInfo), (∀ wi ∈ ws, GoodWord wi) →
    ∀ (tail : List Nat),
    linesAux [] (wordsLines ws ++ tail) =
      (ws.map (fun wi => wi.word ++ [32] ++ natDecimal wi.count ++ [10])) ++
        linesAux [] tail := by
  intro ws
  induction ws with
  | nil => intro _ tail; simp [wordsLines]
  | cons wi rest ih =>
    intro h tail
    have hg := h wi (by simp)
    have hpre : ∀ b ∈ wi.word ++ [32] ++ natDecimal wi.count, (b == 10) = false := by
      intro b hb
      simp only [List.append_assoc, List.mem_append, List.mem_singleton] at hb
      rcases hb with hb | hb | hb
      · have hws := hg.2.1 b hb
        simp only [isAsciiWs, Bool.or_eq_false_iff, beq_eq_false_iff_ne, ne_eq] at hws
        simp only [beq_eq_false_iff_ne, ne_eq]
        omega
      · subst hb; rfl
      · have := natDecimal_digits wi.count b hb
        simp only [beq_eq_false_iff_ne, ne_eq]
        omega
    rw [wordsLines_cons]
    rw [show (wi.word ++ [32] ++ natDecimal wi.count ++ [10] ++ wordsLines rest) ++ tail
        = (wi.word ++ [32] ++ natDecimal wi.count) ++ 10 :: (wordsLines rest ++ tail) by
      simp]
    rw [linesAux_pre _ hpre [] _]
    rw [ih (fun x hx => h x (by simp [hx])) tail]
    simp

/-- The fresh vocabulary satisfies the hash-table invariant. -/
theorem hashInv_vocabNew (T : Nat) (hashW : List Nat → Nat) :
    HashInv T hashW (vocabNew T) := by
  refine ⟨by simp [vocabNew], ?_, ?_, ?_⟩
  · intro i s hget hs
    have : s ∈ List.replicate T (-1 : Int) := List.get?_mem hget
    exact absurd (List.eq_of_mem_replicate this) hs
  · intro widx hwidx
    simp [vocabNew] at hwidx
  · have : (List.replicate T (-1 : Int)).countP (fun s => decide (s ≠ -1)) = 0 := by
      rw [List.countP_eq_zero]
      intro a ha
      rw [List.eq_of_mem_replicate ha]
      simp
    simp [vocabNew, this]

/-- Unfolding equation of `loadLines` on a cons. -/
theorem loadLines_cons (T : Nat) (hashW : List Nat → Nat) (v : Vocab)
    (line : List Nat) (rest : List (List Nat)) :
    loadLines T hashW v (line :: rest) =
      match (splitWs line).get? 0, (splitWs line).get? 1 with
      | some p1, some p2 =>
        if validUtf8 p1 && validUtf8 p2 then
          match parseU32 p2 with
          | none => .error .invalidCount
          | some count =>
            if p1 = [] then .error .emptyWord
            else do
              let v ← addWordWithCount T hashW v p1 count
              loadLines T hashW v rest
        else .error .invalidLine
      | _, _ => .ok v := rfl

/-- Loading the saved lines of pairwise-distinct well-formed words into a
well-formed vocabulary with room for them appends them all and preserves
the invariant. -/
theorem loadLines_good (T : Nat) (hashW : List Nat → Nat) :
    ∀ (ws : List WordInfo) (v : Vocab) (tailL : List (List Nat)),
    HashInv T hashW v →
    v.words.length + ws.length ≤ T →
    (∀ wi ∈ ws, GoodWord wi) →
    ((v.words ++ ws).map (fun wi => wi.word)).Nodup →
    ∃ v', loadLines T hashW v
        (ws.map (fun wi => wi.word ++ [32] ++ natDecimal wi.count ++ [10]) ++ tailL) =
        loadLines T hashW v' tailL ∧
      v'.words = v.words ++ ws ∧ v'.minReduce = v.minReduce ∧
      v'.unigramTable = v.unigramTable ∧ HashInv T hashW v' := by
  intro ws
  induction ws with
  | nil =>
    intro v tailL hinv _ _ _
    exact ⟨v, by rw [List.map_nil, List.nil_append], by simp, rfl, rfl, hinv⟩
  | cons wi rest ih =>
    intro v tailL hinv hcap hgood hnd
    have hg := hgood wi (by simp)
    have hsplit := splitWs_good_line wi.word (natDecimal wi.count) hg.2.1
      (fun b hb => isAsciiWs_digit b (natDecimal_digits wi.count b hb).1
        (natDecimal_digits wi.count b hb).2)
    have hvd : validUtf8 (natDecimal wi.count) = true :=
      validUtf8_ascii _ (fun b hb => by
        have := natDecimal_digits wi.count b hb
        omega)
    have habs : ∀ wj ∈ v.words, wj.word ≠ wi.word := by
      intro wj hwj heq
      rw [List.map_append, List.nodup_append] at hnd
      exact hnd.2.2 (List.mem_map_of_mem _ hwj)
        (by rw [heq]; exact List.mem_map_of_mem _ (by simp))
    obtain ⟨v1, haww, hw1, htw1, hmr1, hut1, hinv1⟩ :=
      addWordWithCount_insert T hashW v wi.word wi.count hinv
        (by simp only [List.length_cons] at hcap; omega) habs
    have hw1' : v1.words = v.words ++ [wi] := hw1
    obtain ⟨v', hrun, hwords, hmr, hut, hinv'⟩ := ih v1 tailL hinv1
      (by rw [hw1']; simp only [List.length_append, List.length_cons,
            List.length_nil] at hcap ⊢; omega)
      (fun x hx => hgood x (by simp [hx]))
      (by rw [hw1']
          rw [show (v.words ++ [wi]) ++ rest = v.words ++ wi :: rest by simp]
          exact hnd)
    refine ⟨v', ?_, ?_, ?_, ?_, hinv'⟩
    · rw [List.map_cons, List.cons_append, loadLines_cons, hsplit]
      dsimp only [List.get?]
      rw [if_pos (by rw [hg.2.2.1, hvd]; rfl)]
      rw [parseU32_natDecimal wi.count hg.2.2.2]
      dsimp only
      rw [if_neg hg.1]
      rw [haww]
      show loadLines T hashW v1 _ = loadLines T hashW v' tailL
      exact hrun
    · rw [hwords, hw1']
      simp
    · rw [hmr, hmr1]
    · rw [hut, hut1]

/-- Every member of a list sits at some in-range index. -/
theorem mem_index (l : List WordInfo) (z : WordInfo) (hz : z ∈ l) :
    ∃ i, i < l.length ∧ l.getD i ⟨[], 0⟩ = z := by
  induction l with
  | nil => cases hz
  | cons x xs ih =>
    rcases List.mem_cons.mp hz with h | h
    · exact ⟨0, by simp, h.symm⟩
    · obtain ⟨i, hi, hg⟩ := ih h
      refine ⟨i + 1, ?_, hg⟩
      simp only [List.length_cons]
      omega

/-- The saved content of well-formed words splits into exactly their lines. -/
theorem linesOfContent_wordsLines (ws : List WordInfo)
    (hgood : ∀ wi ∈ ws, GoodWord wi) :
    linesOfContent (wordsLines ws) =
      ws.map (fun wi => wi.word ++ [32] ++ natDecimal wi.count ++ [10]) := by
  have h := linesAux_wordsLines ws hgood []
  rw [List.append_nil] at h
  show linesAux [] (wordsLines ws) = _
  rw [h, show linesAux [] [] = ([] : List (List Nat)) from rfl, List.append_nil]

/-- A list whose mapped values repeat splits at the first repeat: a prefix
with pairwise-distinct values followed by an element whose value already
occurred. -/
theorem exists_first_dup (f : WordInfo → List Nat) :
    ∀ (l : List WordInfo), ¬ (l.map f).Nodup →
    ∃ l₁ x l₂, l = l₁ ++ x :: l₂ ∧ (l₁.map f).Nodup ∧ f x ∈ l₁.map f := by
  intro l
  induction l with
  | nil => intro h; simp at h
  | cons y ys ih =>
    intro h
    by_cases hys : (ys.map f).Nodup
    · have hy : f y ∈ ys.map f := by
        by_contra hny
        rw [List.map_cons, List.nodup_cons] at h
        exact h ⟨hny, hys⟩
      obtain ⟨z, hz, hfz⟩ := List.mem_map.mp hy
      obtain ⟨st, t, rfl⟩ := List.append_of_mem hz
      rw [List.map_append, List.map_cons, List.nodup_append] at hys
      obtain ⟨hnds, hndzt, hdisj⟩ := hys
      refine ⟨y :: st, z, t, by simp, ?_, ?_⟩
      · rw [List.map_cons, List.nodup_cons]
        refine ⟨?_, hnds⟩
        rw [← hfz]
        intro hmem
        exact hdisj hmem (List.mem_cons_self _ _)
      · rw [List.map_cons, hfz]
        exact List.mem_cons_self _ _
    · obtain ⟨l₁, x, l₂, heq, hnd1, hmem⟩ := ih hys
      by_cases hyin : f y ∈ l₁.map f
      · obtain ⟨z, hz, hfz⟩ := List.mem_map.mp hyin
        obtain ⟨st, t, hl₁⟩ := List.append_of_mem hz
        rw [hl₁, List.map_append, List.map_cons, List.nodup_append] at hnd1
        obtain ⟨hnds, hndzt, hdisj⟩ := hnd1
        refine ⟨y :: st, z, t ++ x :: l₂, ?_, ?_, ?_⟩
        · rw [heq, hl₁]
          simp
        · rw [List.map_cons, List.nodup_cons]
          refine ⟨?_, hnds⟩
          rw [← hfz]
          intro hmemz
          exact hdisj hmemz (List.mem_cons_self _ _)
        · rw [List.map_cons, hfz]
          exact List.mem_cons_self _ _
      · refine ⟨y :: l₁, x, l₂, by rw [heq]; rfl, ?_, ?_⟩
        · rw [List.map_cons, List.nodup_cons]
          exact ⟨hyin, hnd1⟩
        · rw [List.map_cons]
          exact List.mem_cons_of_mem _ hmem

/-- `add_word_with_count` on a word already reachable in the hash table
trips `assert!(word_idx == -1)`. -/
theorem addWordWithCount_present (T : Nat) (hashW : List Nat → Nat) (v : Vocab)
    (w : List Nat) (c : Nat)
    (hval : ∀ i s, v.hashTable.get? i = some s → s ≠ -1 →
      ∃ widx, s = Int.ofNat widx ∧ widx < v.words.length)
    (widx : Nat)
    (hword : (v.words.getD widx ⟨[], 0⟩).word = w)
    (hch : ChainTo T v.hashTable (hashW w) widx) :
    addWordWithCount T hashW v w c = .error .assertFail := by
  obtain ⟨k, hk, hend, hchain⟩ := hch
  obtain ⟨p, r, hrun⟩ :=
    getWordIndicesAux_finds T v w hval k T (hashW w) widx hk hend hword hchain
  unfold addWordWithCount getWordIndices getWordHashIndex
  rw [hrun]
  simp only [bind, Except.bind]
  rw [if_pos (show ((p, Int.ofNat r).2 ≠ -1) by simp)]

/-- C9: `load_from_file` on saved content whose lines repeat a word (all
entries otherwise well-formed and fitting the table) hits the
`assert!(word_idx == -1)` of `add_word_with_count` and fails with the
assertion panic, exactly as the spec says duplicate vocabulary entries are
rejected by the assertion. -/
theorem claimC9_duplicate_word_asserts (T : Nat) (hashW : List Nat → Nat)
    (N : Nat) (wpow : Nat → ℚ) (ws : List WordInfo)
    (hgood : ∀ wi ∈ ws, GoodWord wi) (hlen : ws.length ≤ T)
    (hdup : ¬ (ws.map (fun wi => wi.word)).Nodup) :
    loadFromFile T hashW N wpow (wordsLines ws) = .error .assertFail := by
  obtain ⟨ws₁, wj, ws₂, rfl, hnd1, hmem⟩ :=
    exists_first_dup (fun wi : WordInfo => wi.word) ws hdup
  have hgood1 : ∀ wi ∈ ws₁, GoodWord wi := fun x hx => hgood x (by simp [hx])
  have hgj : GoodWord wj := hgood wj (by simp)
  obtain ⟨v1, hrun1, hw1, _hmr, _hut, hinv1⟩ := loadLines_good T hashW ws₁ (vocabNew T)
    ((wj :: ws₂).map (fun wi => wi.word ++ [32] ++ natDecimal wi.count ++ [10]))
    (hashInv_vocabNew T hashW)
    (by
      simp only [List.length_append, List.length_cons] at hlen
      show ([] : List WordInfo).length + ws₁.length ≤ T
      simp only [List.length_nil]
      omega)
    hgood1
    (by
      show (([] ++ ws₁).map (fun wi : WordInfo => wi.word)).Nodup
      rw [List.nil_append]
      exact hnd1)
  have hw1' : v1.words = ws₁ := by simpa using hw1
  obtain ⟨z, hzmem, hfz⟩ := List.mem_map.mp hmem
  obtain ⟨widx, hwidx, hgetz⟩ := mem_index ws₁ z hzmem
  obtain ⟨hlen1, hval1, hchains1, _⟩ := hinv1
  have hword1 : (v1.words.getD widx ⟨[], 0⟩).word = wj.word := by
    rw [hw1', hgetz, hfz]
  have hch := hchains1 widx (by rw [hw1']; exact hwidx)
  rw [hword1] at hch
  have hpres := addWordWithCount_present T hashW v1 wj.word wj.count hval1 widx
    hword1 hch
  unfold loadFromFile
  rw [linesOfContent_wordsLines _ hgood, List.map_append, hrun1]
  rw [List.map_cons, loadLines_cons]
  rw [splitWs_good_line wj.word (natDecimal wj.count) hgj.2.1
    (fun b hb => isAsciiWs_digit b (natDecimal_digits wj.count b hb).1
      (natDecimal_digits wj.count b hb).2)]
  dsimp only [List.get?]
  rw [if_pos (by
    rw [hgj.2.2.1, validUtf8_ascii _ (fun b hb => by
      have := natDecimal_digits wj.count b hb
      omega)]
    rfl)]
  rw [parseU32_natDecimal wj.count hgj.2.2.2]
  dsimp only
  rw [if_neg hgj.1]
  rw [hpres]
  rfl

/-- C9 witness: the two-line file "a 1\na 1\n" trips the assertion. -/
theorem claimC9_witness :
    (∀ wi ∈ [(⟨[97], 1⟩ : WordInfo), ⟨[97], 1⟩], GoodWord wi) ∧
    ([(⟨[97], 1⟩ : WordInfo), ⟨[97], 1⟩].length ≤ 3) ∧
    ¬ (([(⟨[97], 1⟩ : WordInfo), ⟨[97], 1⟩].map (fun wi => wi.word)).Nodup) ∧
    loadFromFile 3 (fun _ => 0) 2 (fun c => (c : ℚ))
      (wordsLines [⟨[97], 1⟩, ⟨[97], 1⟩]) = .error .assertFail := by
  have hg : ∀ wi ∈ [(⟨[97], 1⟩ : WordInfo), ⟨[97], 1⟩], GoodWord wi := by
    intro wi hwi
    have hwi' : wi = (⟨[97], 1⟩ : WordInfo) := by
      rcases List.mem_cons.mp hwi with h | h
      · exact h
      · simpa using h
    subst hwi'
    exact ⟨by decide, by decide, by decide, by decide⟩
  exact ⟨hg, by decide, by decide,
    claimC9_duplicate_word_asserts 3 (fun _ => 0) 2 (fun c => (c : ℚ))
      [⟨[97], 1⟩, ⟨[97], 1⟩] hg (by decide) (by decide)⟩

/-- A newline-free byte list read by `read_until` is a single (final)
line. -/
theorem linesAux_no_nl : ∀ (a : List Nat), (∀ b ∈ a, (b == 10) = false) →
    ∀ (cur : List Nat),
    linesAux cur a = if cur ++ a = [] then [] else [cur ++ a] := by
  intro a
  induction a with
  | nil =>
    intro _ cur
    show (if cur = [] then [] else [cur]) = _
    rw [List.append_nil]
  | cons b bs ih =>
    intro h cur
    have hb : (b == 10) = false := h b (by simp)
    rw [linesAux_cons, if_neg (by simp [hb])]
    rw [ih (fun x hx => h x (by simp [hx])) (cur ++ [b])]
    rw [if_neg (by simp), if_neg (by simp)]
    simp

/-- A line with no whitespace at all splits as a single field: `load_from_file`
takes the `else break` and stops silently. -/
theorem loadLines_solo (T : Nat) (hashW : List Nat → Nat) (solo : List Nat)
    (hsolo : ∀ b ∈ solo, isAsciiWs b = false) :
    ∀ (L : List (List Nat)) (v : Vocab),
    loadLines T hashW v (L ++ [solo]) = loadLines T hashW v L := by
  have hsplit : splitWs solo = [solo] := by
    show splitWsAux [] solo = [solo]
    conv_lhs => rw [show solo = solo ++ [] by rw [List.append_nil]]
    rw [splitWsAux_no_ws solo hsolo [] [], List.nil_append]
    rfl
  intro L
  induction L with
  | nil =>
    intro v
    rw [List.nil_append]
    show loadLines T hashW v [solo] = .ok v
    rw [loadLines_cons, hsplit]
    dsimp only [List.get?]
  | cons line rest ih =>
    intro v
    rw [List.cons_append, loadLines_cons, loadLines_cons]
    cases h0 : (splitWs line).get? 0 with
    | none => rfl
    | some p1 =>
      cases h1 : (splitWs line).get? 1 with
      | none => rfl
      | some p2 =>
        dsimp only
        by_cases hu : (validUtf8 p1 && validUtf8 p2) = true
        · rw [if_pos hu, if_pos hu]
          cases hp : parseU32 p2 with
          | none => rfl
          | some c =>
            dsimp only
            by_cases hnil : p1 = []
            · rw [if_pos hnil, if_pos hnil]
            · rw [if_neg hnil, if_neg hnil]
              cases haw : addWordWithCount T hashW v p1 c with
              | error e => rfl
              | ok v1 =>
                show loadLines T hashW v1 (rest ++ [solo]) = loadLines T hashW v1 rest
                exact ih v1
        · rw [if_neg hu, if_neg hu]

/-- Folding positive weights keeps a positive accumulator positive. -/
theorem foldl_add_pos (wpow : Nat → ℚ) (hw : ∀ n, 0 < wpow n) :
    ∀ (l : List WordInfo) (acc : ℚ), 0 < acc →
    0 < l.foldl (fun a wi => a + wpow wi.count) acc := by
  intro l
  induction l with
  | nil => intro acc h; exact h
  | cons x xs ih =>
    intro acc h
    show 0 < xs.foldl (fun a wi => a + wpow wi.count) (acc + wpow x.count)
    exact ih _ (by have := hw x.count; linarith)

/-- The total `count^0.75` mass of a non-empty vocabulary is positive. -/
theorem total_pos (wpow : Nat → ℚ) (hw : ∀ n, 0 < wpow n) (words : List WordInfo)
    (hne : words ≠ []) :
    0 < words.foldl (fun a wi => a + wpow wi.count) 0 := by
  cases words with
  | nil => exact absurd rfl hne
  | cons x xs =>
    show 0 < xs.foldl (fun a wi => a + wpow wi.count) (0 + wpow x.count)
    exact foldl_add_pos wpow hw xs _ (by have := hw x.count; linarith)

/-- Prefix-mass recurrence: one more word adds its weight. -/
theorem take_foldl_succ (wpow : Nat → ℚ) : ∀ (words : List WordInfo) (k : Nat),
    k < words.length → ∀ (acc : ℚ),
    (words.take (k + 1)).foldl (fun a wi => a + wpow wi.count) acc =
      (words.take k).foldl (fun a wi => a + wpow wi.count) acc +
        wpow ((words.getD k ⟨[], 0⟩).count) := by
  intro words
  induction words with
  | nil => intro k hk; simp at hk
  | cons x xs ih =>
    intro k hk acc
    cases k with
    | zero => simp
    | succ k =>
      show (x :: xs.take (k + 1)).foldl _ acc = (x :: xs.take k).foldl _ acc + _
      simp only [List.foldl_cons]
      exact ih k (by simpa using hk) (acc + wpow x.count)

/-- The `init_unigram_table` fill loop never fails: the cumulative fraction
reaches 1 exactly at the last word, so `word_idx + 1` stays in range. -/
theorem initUnigram_fold_ok (N : Nat) (wpow : Nat → ℚ) (words : List WordInfo)
    (total : ℚ) (hw : ∀ n, 0 < wpow n) (hne : words ≠ [])
    (htot : total = words.foldl (fun a wi => a + wpow wi.count) 0) :
    ∀ (l : List Nat) (tab : List Int) (wordIdx : Nat) (frac : ℚ),
    (∀ i ∈ l, i < N) →
    wordIdx < words.length →
    frac = ((words.take (wordIdx + 1)).foldl (fun a wi => a + wpow wi.count) 0) / total →
    ∃ r, l.foldlM (initUnigramStep N wpow words total) (tab, wordIdx, frac) = .ok r := by
  have htpos : 0 < total := htot ▸ total_pos wpow hw words hne
  intro l
  induction l with
  | nil => intro tab wordIdx frac _ _ _; exact ⟨(tab, wordIdx, frac), rfl⟩
  | cons i l' ih =>
    intro tab wordIdx frac hiN hwlt hfrac
    have hi : i < N := hiN i (by simp)
    have hN : 0 < N := by omega
    rw [List.foldlM_cons]
    by_cases hcond : ((i : ℚ) / (N : ℚ)) > frac
    · have hlt : wordIdx + 1 < words.length := by
        by_contra hge
        have heq : wordIdx + 1 = words.length := by omega
        have hone : frac = 1 := by
          rw [hfrac, heq, List.take_length, ← htot]
          exact div_self (ne_of_gt htpos)
        have hlt1 : ((i : ℚ) / (N : ℚ)) < 1 := by
          rw [div_lt_one (by exact_mod_cast hN)]
          exact_mod_cast hi
        rw [hone] at hcond
        linarith
      have hstep : initUnigramStep N wpow words total (tab, wordIdx, frac) i =
          .ok (tab ++ [Int.ofNat wordIdx], wordIdx + 1,
            frac + wpow ((words.getD (wordIdx + 1) ⟨[], 0⟩).count) / total) := by
        unfold initUnigramStep
        dsimp only
        rw [if_pos hcond, get?_getD _ _ hlt]
      rw [hstep]
      obtain ⟨r, hr⟩ := ih (tab ++ [Int.ofNat wordIdx]) (wordIdx + 1)
        (frac + wpow ((words.getD (wordIdx + 1) ⟨[], 0⟩).count) / total)
        (fun j hj => hiN j (by simp [hj])) hlt
        (by
          rw [hfrac, take_foldl_succ wpow words (wordIdx + 1) hlt 0]
          rw [div_add_div_same])
      exact ⟨r, hr⟩
    · have hstep : initUnigramStep N wpow words total (tab, wordIdx, frac) i =
          .ok (tab ++ [Int.ofNat wordIdx], wordIdx, frac) := by
        unfold initUnigramStep
        dsimp only
        rw [if_neg hcond]
      rw [hstep]
      obtain ⟨r, hr⟩ := ih (tab ++ [Int.ofNat wordIdx]) wordIdx frac
        (fun j hj => hiN j (by simp [hj])) hwlt hfrac
      exact ⟨r, hr⟩

/-- `init_unigram_table` succeeds on every non-empty vocabulary (with
positive weights) and touches only the unigram table. -/
theorem initUnigramTable_ok (N : Nat) (wpow : Nat → ℚ) (v : Vocab)
    (hne : v.words ≠ []) (hw : ∀ n, 0 < wpow n) :
    ∃ v', initUnigramTable N wpow v = .ok v' ∧ v'.words = v.words ∧
      v'.hashTable = v.hashTable ∧ v'.trainWords = v.trainWords ∧
      v'.minReduce = v.minReduce := by
  have hlen : 0 < v.words.length := by
    cases hvw : v.words with
    | nil => exact absurd hvw hne
    | cons x xs => simp
  have hfrac0 : wpow ((v.words.headD ⟨[], 0⟩).count) /
      (v.words.foldl (fun a wi => a + wpow wi.count) 0) =
      ((v.words.take (0 + 1)).foldl (fun a wi => a + wpow wi.count) 0) /
        (v.words.foldl (fun a wi => a + wpow wi.count) 0) := by
    cases hvw : v.words with
    | nil => exact absurd hvw hne
    | cons x xs => simp
  obtain ⟨r, hr⟩ := initUnigram_fold_ok N wpow v.words
    (v.words.foldl (fun a wi => a + wpow wi.count) 0) hw hne rfl
    (List.range N) [] 0
    (wpow ((v.words.headD ⟨[], 0⟩).count) /
      (v.words.foldl (fun a wi => a + wpow wi.count) 0))
    (fun i hi => List.mem_range.mp hi) hlen hfrac0
  refine ⟨{ v with unigramTable := r.1 }, ?_, rfl, rfl, rfl, rfl⟩
  unfold initUnigramTable
  rw [if_neg (by rw [List.isEmpty_iff]; exact hne)]
  show (List.foldlM (initUnigramStep N wpow v.words
      (v.words.foldl (fun a wi => a + wpow wi.count) 0))
      ([], 0, wpow ((v.words.headD ⟨[], 0⟩).count) /
        (v.words.foldl (fun a wi => a + wpow wi.count) 0)) (List.range N) >>=
      fun r => pure { v with unigramTable := r.1 }) = _
  rw [hr]
  rfl

/-- C3 counterexample: the file "a 2\nb" has a malformed final line (the
single field `b`), yet `load_from_file` returns Ok with the partial
vocabulary {a: 2} instead of a data-format error: the `else break` at
vocab.rs:75-77 silently stops reading. -/
theorem claimC3_counterexample :
    ∃ v, loadFromFile 5 (fun _ => 0) 3 (fun _ => (1 : ℚ)) [97, 32, 50, 10, 98] =
      .ok v ∧ v.words = [⟨[97], 2⟩] := by
  have hgood : ∀ wi ∈ [(⟨[97], 2⟩ : WordInfo)], GoodWord wi := by
    intro wi hwi
    have hwi' : wi = (⟨[97], 2⟩ : WordInfo) := by simpa using hwi
    subst hwi'
    exact ⟨by decide, by decide, by decide, by decide⟩
  obtain ⟨v1, hv1, hw1, _, _, _⟩ := loadLines_good 5 (fun _ => 0) [⟨[97], 2⟩]
    (vocabNew 5) [[98]] (hashInv_vocabNew 5 (fun _ => 0))
    (by show ([] : List WordInfo).length + _ ≤ 5; decide)
    hgood
    (by show (([] ++ [(⟨[97], 2⟩ : WordInfo)]).map (fun wi : WordInfo => wi.word)).Nodup; decide)
  have hw1' : v1.words = [(⟨[97], 2⟩ : WordInfo)] := by simpa using hw1
  obtain ⟨v', hv', hwords', _, _, _⟩ := initUnigramTable_ok 3 (fun _ => (1 : ℚ)) v1
    (by rw [hw1']; simp) (fun _ => by norm_num)
  refine ⟨v', ?_, by rw [hwords', hw1']⟩
  show loadFromFile 5 (fun _ => 0) 3 (fun _ => (1 : ℚ))
    (wordsLines [⟨[97], 2⟩] ++ [98]) = .ok v'
  unfold loadFromFile
  rw [show linesOfContent (wordsLines [(⟨[97], 2⟩ : WordInfo)] ++ [98]) =
      ([(⟨[97], 2⟩ : WordInfo)].map
        (fun wi => wi.word ++ [32] ++ natDecimal wi.count ++ [10])) ++ [[98]] from by
    show linesAux [] _ = _
    rw [linesAux_wordsLines [⟨[97], 2⟩] hgood [98]]
    rfl]
  rw [hv1]
  rw [show loadLines 5 (fun _ => 0) v1 [[98]] = .ok v1 from by
    have h := loadLines_solo 5 (fun _ => 0) [98] (by decide) [] v1
    rw [List.nil_append] at h
    rw [h]
    rfl]
  show (if v1.words.isEmpty then Except.error VErr.emptyVocab
    else initUnigramTable 3 (fun _ => (1 : ℚ)) v1) = .ok v'
  rw [if_neg (show ¬ (v1.words.isEmpty = true) by rw [List.isEmpty_iff, hw1']; simp)]
  exact hv'

/-- C3 (amended): on a two-field line, `load_from_file` does fail fast —
with `invalidLine` on invalid UTF-8 in either field, `invalidCount` on a
non-numeric count, `emptyWord` on an empty word — and it fails with
`emptyVocab` on an empty file; but a line with fewer than two fields is not
an error: reading stops silently before it and whatever was read so far is
returned. -/
theorem claimC3_malformed_line_handling (T : Nat) (hashW : List Nat → Nat)
    (N : Nat) (wpow : Nat → ℚ) (good : List WordInfo) (p1 p2 rest' solo : List Nat)
    (hgood : ∀ wi ∈ good, GoodWord wi) (hcap : good.length ≤ T)
    (hnd : (good.map (fun wi : WordInfo => wi.word)).Nodup)
    (hp1 : ∀ b ∈ p1, isAsciiWs b = false) (hp2 : ∀ b ∈ p2, isAsciiWs b = false)
    (hsolo : ∀ b ∈ solo, isAsciiWs b = false) :
    (validUtf8 p1 = false ∨ validUtf8 p2 = false →
      loadFromFile T hashW N wpow
        (wordsLines good ++ (p1 ++ [32] ++ p2 ++ [10] ++ rest')) =
        .error .invalidLine) ∧
    (validUtf8 p1 = true → validUtf8 p2 = true → parseU32 p2 = none →
      loadFromFile T hashW N wpow
        (wordsLines good ++ (p1 ++ [32] ++ p2 ++ [10] ++ rest')) =
        .error .invalidCount) ∧
    (validUtf8 p2 = true → parseU32 p2 ≠ none → p1 = [] →
      loadFromFile T hashW N wpow
        (wordsLines good ++ (p1 ++ [32] ++ p2 ++ [10] ++ rest')) =
        .error .emptyWord) ∧
    loadFromFile T hashW N wpow [] = .error .emptyVocab ∧
    loadFromFile T hashW N wpow (wordsLines good ++ solo) =
      loadFromFile T hashW N wpow (wordsLines good) := by
  have hpre10 : ∀ b ∈ p1 ++ [32] ++ p2, (b == 10) = false := by
    intro b hb
    simp only [List.append_assoc, List.mem_append, List.mem_singleton] at hb
    simp only [beq_eq_false_iff_ne, ne_eq]
    rcases hb with hb | hb | hb
    · have := hp1 b hb
      simp only [isAsciiWs, Bool.or_eq_false_iff, beq_eq_false_iff_ne, ne_eq] at this
      omega
    · omega
    · have := hp2 b hb
      simp only [isAsciiWs, Bool.or_eq_false_iff, beq_eq_false_iff_ne, ne_eq] at this
      omega
  have hlinesbad : linesOfContent (wordsLines good ++ (p1 ++ [32] ++ p2 ++ [10] ++ rest')) =
      good.map (fun wi => wi.word ++ [32] ++ natDecimal wi.count ++ [10]) ++
        ((p1 ++ [32] ++ p2 ++ [10]) :: linesAux [] rest') := by
    show linesAux [] _ = _
    rw [linesAux_wordsLines good hgood]
    rw [show p1 ++ [32] ++ p2 ++ [10] ++ rest' = (p1 ++ [32] ++ p2) ++ 10 :: rest' by simp]
    rw [linesAux_pre _ hpre10 [] rest']
    simp
  have hload : ∀ tailL, ∃ v', loadLines T hashW (vocabNew T)
      (good.map (fun wi => wi.word ++ [32] ++ natDecimal wi.count ++ [10]) ++ tailL) =
      loadLines T hashW v' tailL := by
    intro tailL
    obtain ⟨v', hv', _, _, _, _⟩ := loadLines_good T hashW good (vocabNew T) tailL
      (hashInv_vocabNew T hashW)
      (by
        show ([] : List WordInfo).length + good.length ≤ T
        simp only [List.length_nil]
        omega)
      hgood
      (by
        show (([] ++ good).map (fun wi : WordInfo => wi.word)).Nodup
        rw [List.nil_append]
        exact hnd)
    exact ⟨v', hv'⟩
  obtain ⟨vb, hvb⟩ := hload ((p1 ++ [32] ++ p2 ++ [10]) :: linesAux [] rest')
  have hsplitbad : splitWs (p1 ++ [32] ++ p2 ++ [10]) = [p1, p2, []] :=
    splitWs_good_line p1 p2 hp1 hp2
  refine ⟨?_, ?_, ?_, by rfl, ?_⟩
  · intro hbad
    unfold loadFromFile
    rw [hlinesbad, hvb, loadLines_cons, hsplitbad]
    dsimp only [List.get?]
    rw [if_neg (by rcases hbad with h | h <;> simp [h])]
    rfl
  · intro h1 h2 hpn
    unfold loadFromFile
    rw [hlinesbad, hvb, loadLines_cons, hsplitbad]
    dsimp only [List.get?]
    rw [if_pos (by rw [h1, h2]; rfl), hpn]
    rfl
  · intro h2 hpn hnil
    obtain ⟨c, hc⟩ : ∃ c, parseU32 p2 = some c := by
      cases hp : parseU32 p2 with
      | none => exact absurd hp hpn
      | some c => exact ⟨c, rfl⟩
    unfold loadFromFile
    rw [hlinesbad, hvb, loadLines_cons, hsplitbad]
    dsimp only [List.get?]
    rw [if_pos (by rw [hnil, h2]; rfl), hc]
    dsimp only
    rw [if_pos hnil]
    rfl
  · have hlinessolo : linesOfContent (wordsLines good ++ solo) =
        good.map (fun wi => wi.word ++ [32] ++ natDecimal wi.count ++ [10]) ++
          linesAux [] solo := by
      show linesAux [] _ = _
      rw [linesAux_wordsLines good hgood]
    by_cases hsnil : solo = []
    · subst hsnil
      rw [List.append_nil]
    · have hsolo10 : ∀ b ∈ solo, (b == 10) = false := by
        intro b hb
        have := hsolo b hb
        simp only [isAsciiWs, Bool.or_eq_false_iff, beq_eq_false_iff_ne, ne_eq] at this
        simp only [beq_eq_false_iff_ne, ne_eq]
        omega
      have hsline : linesAux [] solo = [solo] := by
        rw [linesAux_no_nl solo hsolo10 []]
        rw [List.nil_append, if_neg hsnil]
      unfold loadFromFile
      rw [hlinessolo, hsline, loadLines_solo T hashW solo hsolo
        (good.map (fun wi => wi.word ++ [32] ++ natDecimal wi.count ++ [10])) (vocabNew T)]
      rw [linesOfContent_wordsLines good hgood]


/-- C3 witness: each amended behavior at a concrete file, over the empty
good prefix: invalid UTF-8 byte 255, non-numeric count "a", empty word,
empty file, and a trailing single-field line silently ignored. -/
theorem claimC3_witness :
    loadFromFile 7 (fun _ => 0) 3 (fun _ => (1 : ℚ))
      (wordsLines [] ++ ([255] ++ [32] ++ [50] ++ [10] ++ [])) = .error .invalidLine ∧
    loadFromFile 7 (fun _ => 0) 3 (fun _ => (1 : ℚ))
      (wordsLines [] ++ ([97] ++ [32] ++ [97] ++ [10] ++ [])) = .error .invalidCount ∧
    loadFromFile 7 (fun _ => 0) 3 (fun _ => (1 : ℚ))
      (wordsLines [] ++ ([] ++ [32] ++ [50] ++ [10] ++ [])) = .error .emptyWord ∧
    loadFromFile 7 (fun _ => 0) 3 (fun _ => (1 : ℚ)) [] = .error .emptyVocab ∧
    loadFromFile 7 (fun _ => 0) 3 (fun _ => (1 : ℚ)) (wordsLines [] ++ [98]) =
      loadFromFile 7 (fun _ => 0) 3 (fun _ => (1 : ℚ)) (wordsLines []) := by
  have hgood : ∀ wi ∈ ([] : List WordInfo), GoodWord wi :=
    fun wi h => absurd h (List.not_mem_nil wi)
  refine ⟨?_, ?_, ?_, ?_, ?_⟩
  · exact (claimC3_malformed_line_handling 7 (fun _ => 0) 3 (fun _ => (1 : ℚ))
      [] [255] [50] [] [98] hgood (by decide) (by decide) (by decide) (by decide)
      (by decide)).1 (Or.inl (by decide))
  · exact (claimC3_malformed_line_handling 7 (fun _ => 0) 3 (fun _ => (1 : ℚ))
      [] [97] [97] [] [98] hgood (by decide) (by decide) (by decide) (by decide)
      (by decide)).2.1 (by decide) (by decide) (by decide)
  · exact (claimC3_malformed_line_handling 7 (fun _ => 0) 3 (fun _ => (1 : ℚ))
      [] [] [50] [] [98] hgood (by decide) (by decide) (by decide) (by decide)
      (by decide)).2.2.1 (by decide) (by decide) rfl
  · exact (claimC3_malformed_line_handling 7 (fun _ => 0) 3 (fun _ => (1 : ℚ))
      [] [] [50] [] [98] hgood (by decide) (by decide) (by decide) (by decide)
      (by decide)).2.2.2.1
  · exact (claimC3_malformed_line_handling 7 (fun _ => 0) 3 (fun _ => (1 : ℚ))
      [] [] [50] [] [98] hgood (by decide) (by decide) (by decide) (by decide)
      (by decide)).2.2.2.2

/-- In a vocabulary with pairwise-distinct words, equal stored words mean
equal indices. -/
theorem nodup_getD_inj : ∀ (l : List WordInfo),
    (l.map (fun wi : WordInfo => wi.word)).Nodup →
    ∀ (i j : Nat), i < l.length → j < l.length →
    (l.getD i ⟨[], 0⟩).word = (l.getD j ⟨[], 0⟩).word → i = j := by
  intro l
  induction l with
  | nil => intro _ i j hi _ _; simp at hi
  | cons x xs ih =>
    intro hnd i j hi hj heq
    rw [List.map_cons, List.nodup_cons] at hnd
    cases i with
    | zero =>
      cases j with
      | zero => rfl
      | succ j =>
        exfalso
        have hjlt : j < xs.length := by simpa using hj
        have hmem : (xs.getD j ⟨[], 0⟩) ∈ xs := List.get?_mem (get?_getD xs j hjlt)
        apply hnd.1
        rw [show x.word = ((x :: xs).getD 0 ⟨[], 0⟩).word from rfl, heq]
        exact List.mem_map_of_mem _ hmem
    | succ i =>
      cases j with
      | zero =>
        exfalso
        have hilt : i < xs.length := by simpa using hi
        have hmem : (xs.getD i ⟨[], 0⟩) ∈ xs := List.get?_mem (get?_getD xs i hilt)
        apply hnd.1
        rw [show x.word = ((x :: xs).getD 0 ⟨[], 0⟩).word from rfl, ← heq]
        exact List.mem_map_of_mem _ hmem
      | succ j =>
        have := ih hnd.2 i j (by simpa using hi) (by simpa using hj) heq
        omega

/-- `search_word` of the word stored at index `i` of an invariant-satisfying
vocabulary with pairwise-distinct words returns exactly `i`. -/
theorem searchWord_present (T : Nat) (hashW : List Nat → Nat) (v : Vocab)
    (hinv : HashInv T hashW v)
    (hnd : (v.words.map (fun wi : WordInfo => wi.word)).Nodup)
    (i : Nat) (hi : i < v.words.length) :
    searchWord T hashW v ((v.words.getD i ⟨[], 0⟩).word) = .ok (Int.ofNat i) := by
  obtain ⟨hlen, hval, hchains, _⟩ := hinv
  obtain ⟨k, hk, hend, hchain⟩ := hchains i hi
  obtain ⟨r, hrlt, hrword, hrun⟩ := searchWordAux_finds T v
    ((v.words.getD i ⟨[], 0⟩).word) hval k T
    (hashW ((v.words.getD i ⟨[], 0⟩).word)) i hk hend rfl hchain
  have hri : r = i := nodup_getD_inj v.words hnd r i hrlt hi hrword
  subst hri
  exact hrun

/-- C7 counterexample: the word "a\x0Cb" contains form feed (byte 12),
which is not a token separator — `tokenizeAux` emits it as one token, so
the learn path can store it — but it is ASCII whitespace for the
`slice::split` of `load_from_file` (vocab.rs:74): the saved line
"a\x0Cb 1\n" splits at the form feed, the second field is the
non-numeric "b", and the load of the saved file fails with
`invalidCount` instead of returning a vocabulary, so the round-trip fails
for this non-empty vocabulary. -/
theorem claimC7_counterexample :
    tokenizeAux [] [97, 12, 98, 10] = [[97, 12, 98], sentinelTok] ∧
    saveToFile (Vocab.mk [⟨[97, 12, 98], 1⟩] [0, -1, -1] 1 1 []) =
      [97, 12, 98, 32, 49, 10] ∧
    loadFromFile 3 (fun _ => 0) 2 (fun _ => (1 : ℚ))
      (saveToFile (Vocab.mk [⟨[97, 12, 98], 1⟩] [0, -1, -1] 1 1 [])) =
      .error .invalidCount :=
  ⟨by decide, by decide, by decide⟩

/-- C7 (amended): for a vocabulary whose words are non-empty, valid UTF-8,
and free of ASCII whitespace bytes (space, tab, newline, form feed, CR) —
the format has no escaping, so only such words survive the line format —
saving and loading the produced file succeeds and yields a vocabulary in
which `search_word` returns the same word ID as in the original for every
saved word (the load path preserves the save order, so the IDs coincide
index by index). -/
theorem claimC7_save_load_roundtrip (T : Nat) (hashW : List Nat → Nat)
    (N : Nat) (wpow : Nat → ℚ) (v : Vocab)
    (hinv : HashInv T hashW v) (hne : v.words ≠ [])
    (hgood : ∀ wi ∈ v.words, GoodWord wi)
    (hnd : (v.words.map (fun wi : WordInfo => wi.word)).Nodup)
    (hcap : v.words.length ≤ T)
    (hw : ∀ n, 0 < wpow n) :
    ∃ v', loadFromFile T hashW N wpow (saveToFile v) = .ok v' ∧
      ∀ i, i < v.words.length →
        searchWord T hashW v' ((v.words.getD i ⟨[], 0⟩).word) = .ok (Int.ofNat i) ∧
        searchWord T hashW v ((v.words.getD i ⟨[], 0⟩).word) = .ok (Int.ofNat i) := by
  obtain ⟨v1, hv1, hw1, _, _, hinv1⟩ := loadLines_good T hashW v.words (vocabNew T) []
    (hashInv_vocabNew T hashW)
    (by
      show ([] : List WordInfo).length + v.words.length ≤ T
      simp only [List.length_nil]
      omega)
    hgood
    (by
      show (([] ++ v.words).map (fun wi : WordInfo => wi.word)).Nodup
      rw [List.nil_append]
      exact hnd)
  rw [List.append_nil] at hv1
  have hw1' : v1.words = v.words := by simpa using hw1
  obtain ⟨v', hv', hwords', hhash', _, _⟩ := initUnigramTable_ok N wpow v1
    (by rw [hw1']; exact hne) hw
  have hinv' : HashInv T hashW v' := by
    refine ⟨?_, ?_, ?_, ?_⟩
    · rw [hhash']
      exact hinv1.1
    · simp only [hhash', hwords']
      exact hinv1.2.1
    · simp only [hhash', hwords']
      exact hinv1.2.2.1
    · simp only [hhash', hwords']
      exact hinv1.2.2.2
  have hndv' : (v'.words.map (fun wi : WordInfo => wi.word)).Nodup := by
    rw [hwords', hw1']
    exact hnd
  refine ⟨v', ?_, ?_⟩
  · show (do
      let vv ← loadLines T hashW (vocabNew T) (linesOfContent (saveToFile v))
      if vv.words.isEmpty then Except.error VErr.emptyVocab
      else initUnigramTable N wpow vv) = .ok v'
    rw [show linesOfContent (saveToFile v) =
        v.words.map (fun wi => wi.word ++ [32] ++ natDecimal wi.count ++ [10]) from
      linesOfContent_wordsLines v.words hgood]
    rw [hv1]
    show (if v1.words.isEmpty then Except.error VErr.emptyVocab
      else initUnigramTable N wpow v1) = .ok v'
    rw [if_neg (show ¬ (v1.words.isEmpty = true) by
      rw [List.isEmpty_iff, hw1']
      exact hne)]
    exact hv'
  · intro i hiv
    constructor
    · have hi' : i < v'.words.length := by rw [hwords', hw1']; exact hiv
      have := searchWord_present T hashW v' hinv' hndv' i hi'
      rw [show (v'.words.getD i ⟨[], 0⟩) = (v.words.getD i ⟨[], 0⟩) by
        rw [hwords', hw1']] at this
      exact this
    · exact searchWord_present T hashW v hinv hnd i hiv

/-- C7 witness: the one-word vocabulary {a: 1} with its valid hash table
round-trips through save/load, with `search_word` agreeing on both sides. -/
theorem claimC7_witness :
    HashInv 3 (fun _ => 0) (Vocab.mk [⟨[97], 1⟩] [0, -1, -1] 1 1 []) ∧
    ∃ v', loadFromFile 3 (fun _ => 0) 2 (fun _ => (1 : ℚ))
        (saveToFile (Vocab.mk [⟨[97], 1⟩] [0, -1, -1] 1 1 [])) = .ok v' ∧
      ∀ i, i < (Vocab.mk [⟨[97], 1⟩] [0, -1, -1] 1 1 []).words.length →
        searchWord 3 (fun _ => 0) v'
          (((Vocab.mk [⟨[97], 1⟩] [0, -1, -1] 1 1 []).words.getD i ⟨[], 0⟩).word) =
          .ok (Int.ofNat i) ∧
        searchWord 3 (fun _ => 0) (Vocab.mk [⟨[97], 1⟩] [0, -1, -1] 1 1 [])
          (((Vocab.mk [⟨[97], 1⟩] [0, -1, -1] 1 1 []).words.getD i ⟨[], 0⟩).word) =
          .ok (Int.ofNat i) := by
  have hinv : HashInv 3 (fun _ => 0) (Vocab.mk [⟨[97], 1⟩] [0, -1, -1] 1 1 []) := by
    refine ⟨by decide, ?_, ?_, by decide⟩
    · intro i s hget hs
      have hi : i < 3 := by
        by_contra hge
        rw [List.get?_eq_none.mpr (show (Vocab.mk [(⟨[97], 1⟩ : WordInfo)]
          [0, -1, -1] 1 1 []).hashTable.length ≤ i by show 3 ≤ i; omega)] at hget
        cases hget
      interval_cases i
      · injection hget with h'
        exact ⟨0, h'.symm, by decide⟩
      · injection hget with h'
        exact absurd h'.symm hs
      · injection hget with h'
        exact absurd h'.symm hs
    · intro widx hwidx
      have h1 : (Vocab.mk [(⟨[97], 1⟩ : WordInfo)] [0, -1, -1] 1 1 []).words.length = 1 :=
        rfl
      have hw0 : widx = 0 := by omega
      subst hw0
      exact ⟨0, by omega, by decide, fun j hj => by omega⟩
  have hgood : ∀ wi ∈ (Vocab.mk [⟨[97], 1⟩] [0, -1, -1] 1 1 []).words, GoodWord wi := by
    intro wi hwi
    have hwi' : wi = (⟨[97], 1⟩ : WordInfo) := by simpa using hwi
    subst hwi'
    exact ⟨by decide, by decide, by decide, by decide⟩
  exact ⟨hinv, claimC7_save_load_roundtrip 3 (fun _ => 0) 2 (fun _ => (1 : ℚ))
    (Vocab.mk [⟨[97], 1⟩] [0, -1, -1] 1 1 []) hinv (by decide) hgood (by decide)
    (by decide) (fun _ => by norm_num)⟩

/-- A probe chain survives any table change that preserves occupied slots. -/
theorem ChainTo_mono (T : Nat) (tbl tbl' : List Int) (h₀ widx : Nat)
    (hpres : ∀ i s, tbl.get? i = some s → s ≠ -1 → tbl'.get? i = some s)
    (h : ChainTo T tbl h₀ widx) : ChainTo T tbl' h₀ widx := by
  obtain ⟨k, hk, hend, hchain⟩ := h
  refine ⟨k, hk, hpres _ _ hend (by simp), ?_⟩
  intro j hj
  obtain ⟨s, hs, hsne⟩ := hchain j hj
  exact ⟨s, hpres _ _ hs hsne, hsne⟩

/-- The insertion loop of `rebuild_hashtable`, characterized on success:
the table keeps its length, stays valid for the index bound, preserves
occupied slots, and gains a probe chain for every inserted pair. -/
theorem rebuildAux_spec (T : Nat) (hashW : List Nat → Nat) (B : Nat) :
    ∀ (pairs : List (Nat × WordInfo)) (tbl : List Int) (tw : Nat)
      (res : List Int × Nat),
    tbl.length = T →
    (∀ i s, tbl.get? i = some s → s ≠ -1 → ∃ w, s = Int.ofNat w ∧ w < B) →
    (∀ p ∈ pairs, p.1 < B) →
    rebuildAux T hashW pairs tbl tw = .ok res →
    res.1.length = T ∧
    (∀ i s, res.1.get? i = some s → s ≠ -1 → ∃ w, s = Int.ofNat w ∧ w < B) ∧
    (∀ i s, tbl.get? i = some s → s ≠ -1 → res.1.get? i = some s) ∧
    (∀ p ∈ pairs, ChainTo T res.1 (hashW (p.2.word)) p.1) := by
  intro pairs
  induction pairs with
  | nil =>
    intro tbl tw res hlen hval _ hrun
    injection hrun with hres
    subst hres
    exact ⟨hlen, hval, fun i s h _ => h, fun p hp => absurd hp (List.not_mem_nil p)⟩
  | cons p rest ih =>
    intro tbl tw res hlen hval hB hrun
    unfold rebuildAux at hrun
    obtain ⟨hidx, hprobe, hrest⟩ := except_bind_ok _ _ _ hrun
    obtain ⟨k, hk, hpk, hfree, hchain⟩ :=
      probeEmptyAux_spec T tbl T (hashW p.2.word) hidx hprobe
    subst hpk
    have hkT : k < T := hk
    have hsetlen : (tbl.set ((hashW p.2.word + k) % T) (Int.ofNat p.1)).length = T := by
      rw [List.length_set]
      exact hlen
    have hsetval : ∀ i s,
        (tbl.set ((hashW p.2.word + k) % T) (Int.ofNat p.1)).get? i = some s →
        s ≠ -1 → ∃ w, s = Int.ofNat w ∧ w < B := by
      intro i s hget hs
      by_cases hi : i = (hashW p.2.word + k) % T
      · subst hi
        rw [List.get?_set_eq_of_lt _ (show (hashW p.2.word + k) % T < tbl.length by
          rw [hlen]; exact Nat.mod_lt _ (by omega))] at hget
        injection hget with hgs
        exact ⟨p.1, hgs.symm, hB p (by simp)⟩
      · rw [List.get?_set_ne _ _ (fun h => hi h.symm)] at hget
        exact hval i s hget hs
    obtain ⟨hlen', hval', hpres', hchains'⟩ := ih _ _ _ hsetlen hsetval
      (fun q hq => hB q (by simp [hq])) hrest
    refine ⟨hlen', hval', ?_, ?_⟩
    · intro i s hget hs
      apply hpres'
      · have hi : i ≠ (hashW p.2.word + k) % T := by
          intro heq
          rw [heq, hfree] at hget
          injection hget with hbad
          exact hs hbad.symm
        rw [List.get?_set_ne _ _ (fun h => hi h.symm)]
        exact hget
      · exact hs
    · intro q hq
      rcases List.mem_cons.mp hq with hq | hq
      · subst hq
        apply ChainTo_mono T _ _ _ _ hpres'
        exact ChainTo_set_new T tbl (hashW q.2.word) k q.1 hkT hlen hfree hchain
      · exact hchains' q hq

/-- `rebuild_hashtable`, characterized on success. -/
theorem rebuildHashtable_spec (T : Nat) (hashW : List Nat → Nat) (v v' : Vocab)
    (h : rebuildHashtable T hashW v = .ok v') :
    v'.words = v.words ∧ v'.minReduce = v.minReduce ∧
    v'.unigramTable = v.unigramTable ∧
    v'.hashTable.length = T ∧
    (∀ i s, v'.hashTable.get? i = some s → s ≠ -1 →
      ∃ w, s = Int.ofNat w ∧ w < v'.words.length) ∧
    (∀ widx, widx < v'.words.length →
      ChainTo T v'.hashTable (hashW ((v'.words.getD widx ⟨[], 0⟩).word)) widx) := by
  unfold rebuildHashtable at h
  obtain ⟨r, hr, hpure⟩ := except_bind_ok _ _ _ h
  have hv' : v' = { v with hashTable := r.1, trainWords := r.2 } := by
    have := hpure
    simp only [pure, Except.pure] at this
    injection this with h2
    exact h2.symm
  subst hv'
  obtain ⟨hlen', hval', _, hchains'⟩ := rebuildAux_spec T hashW v.words.length
    v.words.enum (List.replicate T (-1)) 0 r (by simp)
    (by
      intro i s hget hs
      exact absurd (List.eq_of_mem_replicate (List.get?_mem hget)) hs)
    (fun p hp => (mem_enum_spec v.words p hp).1)
    hr
  refine ⟨rfl, rfl, rfl, hlen', hval', ?_⟩
  intro widx hwidx
  have hmem : (widx, v.words.getD widx ⟨[], 0⟩) ∈ v.words.enum := by
    rw [List.mem_enum_iff_getElem?]
    rw [← List.get?_eq_getElem?]
    exact get?_getD v.words widx hwidx
  have := hchains' (widx, v.words.getD widx ⟨[], 0⟩) hmem
  exact this

/-- The inner back-scan of `reduce_vocab` never goes below `idx`. -/
theorem reduceLastAux_ge (words : List WordInfo) (m idx : Nat) :
    ∀ (fuel last : Nat), idx ≤ last → idx ≤ reduceLastAux words m idx fuel last := by
  intro fuel
  induction fuel with
  | zero => intro last h; exact h
  | succ fuel ih =>
    intro last h
    unfold reduceLastAux
    by_cases hc : idx < last ∧ (words.getD last ⟨[], 0⟩).count ≤ m
    · rw [if_pos hc]
      exact ih (last - 1) (by omega)
    · rw [if_neg hc]
      exact h

/-- A non-trivial `take` keeps the head. -/
theorem take_get?_zero (l : List WordInfo) (k : Nat) (hk : 1 ≤ k) :
    (l.take k).get? 0 = l.get? 0 := by
  cases l with
  | nil => simp
  | cons x xs =>
    cases k with
    | zero => omega
    | succ k => rfl

/-- `swap_remove` at an index ≥ 1 on a list of length ≥ 2 keeps the head. -/
theorem swapRemove_get?_zero (l : List WordInfo) (idx : Nat) (hidx : 1 ≤ idx)
    (hlen : 2 ≤ l.length) :
    (swapRemove l idx).get? 0 = l.get? 0 := by
  unfold swapRemove
  rw [take_get?_zero _ _ (by omega)]
  rw [List.get?_set_ne _ _ (show idx ≠ 0 by omega)]

/-- The pruning loop of `reduce_vocab` starts at index 1 and never touches
the head entry. -/
theorem reduceLoopAux_head (m : Nat) : ∀ (fuel idx : Nat)
    (words ws' : List WordInfo),
    1 ≤ idx →
    reduceLoopAux m fuel idx words = .ok ws' →
    ws'.get? 0 = words.get? 0 := by
  intro fuel
  induction fuel with
  | zero => intro idx words ws' _ h; cases h
  | succ fuel ih =>
    intro idx words ws' hidx h
    unfold reduceLoopAux at h
    by_cases hge : idx ≥ words.length
    · rw [if_pos hge] at h
      injection h with h'
      rw [h']
    · rw [if_neg hge] at h
      cases hget : words.get? idx with
      | none => rw [hget] at h; cases h
      | some wi =>
        rw [hget] at h
        dsimp only at h
        by_cases hcnt : wi.count ≤ m
        · rw [if_pos hcnt] at h
          have hrec := ih idx _ ws' hidx h
          rw [hrec]
          have hlast := reduceLastAux_ge words m idx words.length
            (words.length - 1) (by omega)
          have h2 : 2 ≤ (words.take
              (reduceLastAux words m idx words.length (words.length - 1) + 1)).length := by
            rw [List.length_take]
            omega
          rw [swapRemove_get?_zero _ _ hidx h2, take_get?_zero _ _ (by omega)]
        · rw [if_neg hcnt] at h
          exact ih (idx + 1) words ws' (by omega) h

/-- `reduce_vocab` keeps the head entry. -/
theorem reduceVocab_head (T : Nat) (hashW : List Nat → Nat) (v v' : Vocab)
    (h : reduceVocab T hashW v = .ok v') :
    v'.words.get? 0 = v.words.get? 0 := by
  unfold reduceVocab at h
  obtain ⟨ws, hws, hreb⟩ := except_bind_ok _ _ _ h
  obtain ⟨hw', _, _, _, _, _⟩ := rebuildHashtable_spec T hashW _ v' hreb
  rw [hw']
  exact reduceLoopAux_head v.minReduce _ 1 v.words ws (by omega) hws

/-- `add_word` preserves the word stored at index 0: it either appends at
the end or increments a count in place, and pruning skips index 0. -/
theorem addWord_head_pres (T : Nat) (hashW : List Nat → Nat) (v : Vocab)
    (w : List Nat) (v₂ : Vocab) (wi0 : WordInfo)
    (hhead : v.words.get? 0 = some wi0)
    (h : addWord T hashW v w = .ok v₂) :
    ∃ wi', v₂.words.get? 0 = some wi' ∧ wi'.word = wi0.word := by
  have hlen0 : 0 < v.words.length := by
    cases hvw : v.words with
    | nil => rw [hvw] at hhead; cases hhead
    | cons a as => simp
  unfold addWord at h
  obtain ⟨hw, h1, h2⟩ := except_bind_ok _ _ _ h
  dsimp only at h2
  by_cases hcase : hw.2 = -1
  · rw [if_pos hcase] at h2
    simp only [pure, Except.pure, bind, Except.bind] at h2
    by_cases htrig : 10 * (v.words ++ [(⟨w, 1⟩ : WordInfo)]).length > 7 * T
    · rw [if_pos htrig] at h2
      have hred := reduceVocab_head T hashW _ v₂ h2
      dsimp only at hred
      refine ⟨wi0, ?_, rfl⟩
      rw [hred, List.get?_append hlen0]
      exact hhead
    · rw [if_neg htrig] at h2
      injection h2 with hv₂
      subst hv₂
      refine ⟨wi0, ?_, rfl⟩
      dsimp only
      rw [List.get?_append hlen0]
      exact hhead
  · rw [if_neg hcase] at h2
    cases hget : v.words.get? hw.2.toNat with
    | none => rw [hget] at h2; cases h2
    | some wi =>
      rw [hget] at h2
      simp only [pure, Except.pure, bind, Except.bind] at h2
      have hset0 : (v.words.set hw.2.toNat ⟨wi.word, wi.count + 1⟩).get? 0 =
          some (if hw.2.toNat = 0 then (⟨wi.word, wi.count + 1⟩ : WordInfo) else wi0) := by
        by_cases hi : hw.2.toNat = 0
        · rw [if_pos hi, hi]
          rw [List.get?_set_eq_of_lt _ hlen0]
        · rw [if_neg hi]
          rw [List.get?_set_ne _ _ hi]
          exact hhead
      have hword0 : (if hw.2.toNat = 0 then (⟨wi.word, wi.count + 1⟩ : WordInfo)
          else wi0).word = wi0.word := by
        by_cases hi : hw.2.toNat = 0
        · rw [if_pos hi]
          rw [hi] at hget
          rw [hget] at hhead
          injection hhead with he
          rw [he]
        · rw [if_neg hi]
      by_cases htrig : 10 * (v.words.set hw.2.toNat
          (⟨wi.word, wi.count + 1⟩ : WordInfo)).length > 7 * T
      · rw [if_pos htrig] at h2
        have hred := reduceVocab_head T hashW _ v₂ h2
        dsimp only at hred
        refine ⟨_, ?_, hword0⟩
        rw [hred]
        exact hset0
      · rw [if_neg htrig] at h2
        injection h2 with hv₂
        subst hv₂
        exact ⟨_, hset0, hword0⟩

/-- The first `add_word` into an empty vocabulary puts the word at index 0
(and keeps it there through a possible pruning pass). -/
theorem addWord_head_first (T : Nat) (hashW : List Nat → Nat) (v : Vocab)
    (w : List Nat) (v₂ : Vocab)
    (hempty : v.words = [])
    (h : addWord T hashW v w = .ok v₂) :
    ∃ wi', v₂.words.get? 0 = some wi' ∧ wi'.word = w := by
  unfold addWord at h
  obtain ⟨hw, h1, h2⟩ := except_bind_ok _ _ _ h
  dsimp only at h2
  by_cases hcase : hw.2 = -1
  · rw [if_pos hcase] at h2
    simp only [pure, Except.pure, bind, Except.bind] at h2
    by_cases htrig : 10 * (v.words ++ [(⟨w, 1⟩ : WordInfo)]).length > 7 * T
    · rw [if_pos htrig] at h2
      have hred := reduceVocab_head T hashW _ v₂ h2
      dsimp only at hred
      refine ⟨⟨w, 1⟩, ?_, rfl⟩
      rw [hred, hempty]
      rfl
    · rw [if_neg htrig] at h2
      injection h2 with hv₂
      subst hv₂
      refine ⟨⟨w, 1⟩, ?_, rfl⟩
      dsimp only
      rw [hempty]
      rfl
  · rw [if_neg hcase] at h2
    rw [hempty] at h2
    cases h2

/-- Folding `add_word` over the corpus tokens keeps the index-0 word. -/
theorem addWord_fold_head (T : Nat) (hashW : List Nat → Nat) :
    ∀ (toks : List (List Nat)) (v v₂ : Vocab) (wi0 : WordInfo),
    v.words.get? 0 = some wi0 →
    toks.foldlM (fun v t => addWord T hashW v (tokenOut t)) v = .ok v₂ →
    ∃ wi', v₂.words.get? 0 = some wi' ∧ wi'.word = wi0.word := by
  intro toks
  induction toks with
  | nil =>
    intro v v₂ wi0 hh hrun
    injection hrun with h'
    subst h'
    exact ⟨wi0, hh, rfl⟩
  | cons t ts ih =>
    intro v v₂ wi0 hh hrun
    rw [List.foldlM_cons] at hrun
    obtain ⟨v1, h1, h2⟩ := except_bind_ok _ _ _ hrun
    obtain ⟨wi1, hh1, hword1⟩ := addWord_head_pres T hashW v (tokenOut t) v1 wi0 hh h1
    obtain ⟨wi', hh', hword'⟩ := ih v1 v₂ wi1 hh1 h2
    exact ⟨wi', hh', by rw [hword', hword1]⟩

/-- `init_unigram_table`, on success, had a non-empty vocabulary and keeps
words and hash table. -/
theorem initUnigramTable_inv (N : Nat) (wpow : Nat → ℚ) (v v' : Vocab)
    (h : initUnigramTable N wpow v = .ok v') :
    v.words ≠ [] ∧ v'.words = v.words ∧ v'.hashTable = v.hashTable := by
  unfold initUnigramTable at h
  by_cases he : v.words.isEmpty = true
  · rw [if_pos he] at h
    cases h
  · rw [if_neg he] at h
    obtain ⟨r, _, hpure⟩ := except_bind_ok _ _ _ h
    simp only [pure, Except.pure] at hpure
    injection hpure with hv'
    subst hv'
    exact ⟨fun hnil => he (by rw [hnil]; rfl), rfl, rfl⟩

/-- `sort_vocab`, on success: the words are the count-sorted, min-count
truncated originals (head kept first), and the rebuilt table is valid with
a probe chain for every retained index. -/
theorem sortVocab_spec (T : Nat) (hashW : List Nat → Nat) (minCount : Nat)
    (v v' : Vocab) (h : sortVocab T hashW minCount v = .ok v') :
    ∃ w0 tail, v.words = w0 :: tail ∧
      v'.words = (w0 :: sortByKey tail).take
        (partitionPoint (w0 :: sortByKey tail)
          (fun wi => decide (wi.count ≥ minCount))) ∧
      v'.hashTable.length = T ∧
      (∀ i s, v'.hashTable.get? i = some s → s ≠ -1 →
        ∃ w, s = Int.ofNat w ∧ w < v'.words.length) ∧
      (∀ widx, widx < v'.words.length →
        ChainTo T v'.hashTable (hashW ((v'.words.getD widx ⟨[], 0⟩).word)) widx) := by
  unfold sortVocab at h
  cases hvw : v.words with
  | nil => rw [hvw] at h; cases h
  | cons w0 tail =>
    rw [hvw] at h
    dsimp only at h
    obtain ⟨hw', _, _, hlen, hval, hchains⟩ := rebuildHashtable_spec T hashW _ v' h
    exact ⟨w0, tail, rfl, by rw [hw'], hlen, hval, hchains⟩

/-- In a valid table with chains for all indices, `search_word` of any
stored word returns an index carrying that same word. -/
theorem searchWord_found (T : Nat) (hashW : List Nat → Nat) (v : Vocab)
    (hval : ∀ i s, v.hashTable.get? i = some s → s ≠ -1 →
      ∃ w, s = Int.ofNat w ∧ w < v.words.length)
    (hchains : ∀ widx, widx < v.words.length →
      ChainTo T v.hashTable (hashW ((v.words.getD widx ⟨[], 0⟩).word)) widx)
    (i : Nat) (hi : i < v.words.length) :
    ∃ r, r < v.words.length ∧
      (v.words.getD r ⟨[], 0⟩).word = (v.words.getD i ⟨[], 0⟩).word ∧
      searchWord T hashW v ((v.words.getD i ⟨[], 0⟩).word) = .ok (Int.ofNat r) := by
  obtain ⟨k, hk, hend, hchain⟩ := hchains i hi
  obtain ⟨r, hrlt, hrword, hrun⟩ :=
    searchWordAux_finds T v _ hval k T _ i hk hend rfl hchain
  exact ⟨r, hrlt, hrword, hrun⟩

/-- C4: when `learn_vocabulary_from_training_file` succeeds, the entry at
word ID 0 is the sentinel "</s>", and `search_word` of every retained
word returns an ID whose entry holds that same word. -/
theorem claimC4_learn_invariants (T : Nat) (hashW : List Nat → Nat)
    (N : Nat) (wpow : Nat → ℚ) (content : List Nat) (minCount : Nat) (v' : Vocab)
    (h : learnVocabulary T hashW N wpow content minCount = .ok v') :
    v'.words ≠ [] ∧
    (v'.words.getD 0 ⟨[], 0⟩).word = sentinelTok ∧
    ∀ i, i < v'.words.length →
      ∃ r, r < v'.words.length ∧
        (v'.words.getD r ⟨[], 0⟩).word = (v'.words.getD i ⟨[], 0⟩).word ∧
        searchWord T hashW v' ((v'.words.getD i ⟨[], 0⟩).word) = .ok (Int.ofNat r) := by
  unfold learnVocabulary at h
  obtain ⟨v1, h1, h⟩ := except_bind_ok _ _ _ h
  obtain ⟨v2, h2, h⟩ := except_bind_ok _ _ _ h
  obtain ⟨v3, h3, h4⟩ := except_bind_ok _ _ _ h
  obtain ⟨wi1, hh1, hword1⟩ :=
    addWord_head_first T hashW (vocabNew T) (tokenOut sentinelTok) v1 rfl h1
  obtain ⟨wi2, hh2, hword2⟩ := addWord_fold_head T hashW _ v1 v2 wi1 hh1 h2
  obtain ⟨w0, tail, hvw2, hwords3, hlen3, hval3, hchains3⟩ :=
    sortVocab_spec T hashW minCount v2 v3 h3
  obtain ⟨hne3, hwords4, hhash4⟩ := initUnigramTable_inv N wpow v3 v' h4
  have hw0 : w0 = wi2 := by
    rw [hvw2] at hh2
    exact Option.some.inj hh2
  obtain ⟨m, hm⟩ : ∃ m, partitionPoint (w0 :: sortByKey tail)
      (fun wi => decide (wi.count ≥ minCount)) = m + 1 := by
    cases hpp : partitionPoint (w0 :: sortByKey tail)
        (fun wi => decide (wi.count ≥ minCount)) with
    | zero =>
      rw [hpp] at hwords3
      simp at hwords3
      exact absurd hwords3 hne3
    | succ m => exact ⟨m, rfl⟩
  have hhead3 : (v3.words.getD 0 ⟨[], 0⟩).word = sentinelTok := by
    rw [hwords3, hm]
    show w0.word = sentinelTok
    rw [hw0, hword2, hword1]
    rfl
  have hval' : ∀ i s, v'.hashTable.get? i = some s → s ≠ -1 →
      ∃ w, s = Int.ofNat w ∧ w < v'.words.length := by
    simp only [hhash4, hwords4]
    exact hval3
  have hchains' : ∀ widx, widx < v'.words.length →
      ChainTo T v'.hashTable (hashW ((v'.words.getD widx ⟨[], 0⟩).word)) widx := by
    simp only [hhash4, hwords4]
    exact hchains3
  refine ⟨by rw [hwords4]; exact hne3, by rw [hwords4]; exact hhead3, ?_⟩
  intro i hi
  exact searchWord_found T hashW v' hval' hchains' i hi

/-- C4 witness: learning from the empty corpus yields the sentinel-only
vocabulary with a consistent `search_word`. -/
theorem claimC4_witness :
    ∃ v', learnVocabulary 3 (fun _ => 0) 2 (fun _ => (1 : ℚ)) [] 0 = .ok v' ∧
      (v'.words ≠ [] ∧
      (v'.words.getD 0 ⟨[], 0⟩).word = sentinelTok ∧
      ∀ i, i < v'.words.length →
        ∃ r, r < v'.words.length ∧
          (v'.words.getD r ⟨[], 0⟩).word = (v'.words.getD i ⟨[], 0⟩).word ∧
          searchWord 3 (fun _ => 0) v' ((v'.words.getD i ⟨[], 0⟩).word) =
            .ok (Int.ofNat r)) := by
  obtain ⟨v', hv', _, _, _, _⟩ := initUnigramTable_ok 2 (fun _ => (1 : ℚ))
    (Vocab.mk [⟨sentinelTok, 1⟩] [0, -1, -1] 1 1 []) (by simp) (fun _ => by norm_num)
  have hrun : learnVocabulary 3 (fun _ => 0) 2 (fun _ => (1 : ℚ)) [] 0 = .ok v' := by
    show initUnigramTable 2 (fun _ => (1 : ℚ))
      (Vocab.mk [⟨sentinelTok, 1⟩] [0, -1, -1] 1 1 []) = .ok v'
    exact hv'
  exact ⟨v', hrun,
    claimC4_learn_invariants 3 (fun _ => 0) 2 (fun _ => (1 : ℚ)) [] 0 v' hrun⟩

/-- C6: in `train_model_thread`, after the progress block and sentence
refill of an iteration, the end-of-epoch branch is taken exactly when the
tokenizer hit end-of-file with an empty pending sentence or the local word
count exceeds `train_words / num_threads`; it decrements the remaining
epoch counter, exits the loop when it reaches zero, and otherwise resets
the tokenizer to the thread's starting offset and zeroes the word counts
and sentence buffer before continuing; a non-boundary iteration just
advances within the sentence. -/
theorem claimC6_epoch_transition (cfg : ThreadCfg) (fuel : Nat) (s : ThreadState)
    (hli : 1 ≤ (maybeFill cfg (progressUpdate s)).localIter) :
    (epochBoundary cfg (maybeFill cfg (progressUpdate s)) = true ↔
      ((maybeFill cfg (progressUpdate s)).sentenceLength = 0 ∧
        (maybeFill cfg (progressUpdate s)).eofReached = true) ∨
      (maybeFill cfg (progressUpdate s)).wordCount >
        cfg.trainWords / cfg.numThreads) ∧
    threadLoop cfg (fuel + 1) s =
      (if epochBoundary cfg (maybeFill cfg (progressUpdate s)) then
        (if (maybeFill cfg (progressUpdate s)).localIter = 1 then
          .ok { maybeFill cfg (progressUpdate s) with
                localIter := (maybeFill cfg (progressUpdate s)).localIter - 1 }
        else threadLoop cfg fuel (epochReset cfg (maybeFill cfg (progressUpdate s))))
      else threadLoop cfg fuel (processAdvance (maybeFill cfg (progressUpdate s)))) ∧
    (epochReset cfg (maybeFill cfg (progressUpdate s))).localIter =
      (maybeFill cfg (progressUpdate s)).localIter - 1 ∧
    (epochReset cfg (maybeFill cfg (progressUpdate s))).wordCount = 0 ∧
    (epochReset cfg (maybeFill cfg (progressUpdate s))).lastWordCount = 0 ∧
    (epochReset cfg (maybeFill cfg (progressUpdate s))).sentenceLength = 0 ∧
    (epochReset cfg (maybeFill cfg (progressUpdate s))).sentence = [] ∧
    (epochReset cfg (maybeFill cfg (progressUpdate s))).fi =
      ftiReset cfg.content (maybeFill cfg (progressUpdate s)).fi cfg.offset ∧
    (epochReset cfg (maybeFill cfg (progressUpdate s))).eofReached = false := by
  refine ⟨?_, ?_, rfl, rfl, rfl, rfl, rfl, rfl, rfl⟩
  · simp [epochBoundary, Bool.or_eq_true, Bool.and_eq_true, beq_iff_eq,
      decide_eq_true_eq]
  · show (if epochBoundary cfg (maybeFill cfg (progressUpdate s)) then
        (if (maybeFill cfg (progressUpdate s)).localIter - 1 = 0 then
          Except.ok { maybeFill cfg (progressUpdate s) with
            localIter := (maybeFill cfg (progressUpdate s)).localIter - 1 }
        else threadLoop cfg fuel (epochReset cfg (maybeFill cfg (progressUpdate s))))
      else threadLoop cfg fuel (processAdvance (maybeFill cfg (progressUpdate s)))) = _
    by_cases hb : epochBoundary cfg (maybeFill cfg (progressUpdate s)) = true
    · rw [if_pos hb, if_pos hb]
      by_cases h1 : (maybeFill cfg (progressUpdate s)).localIter = 1
      · rw [if_pos (show (maybeFill cfg (progressUpdate s)).localIter - 1 = 0 by
          omega), if_pos h1]
      · rw [if_neg (show ¬ ((maybeFill cfg (progressUpdate s)).localIter - 1 = 0) by
          omega), if_neg h1]
    · rw [if_neg hb, if_neg hb]

/-- C6 witness: a worker on an empty training slice with two epochs left
hits the end-of-file epoch boundary on its first iteration. -/
theorem claimC6_witness :
    1 ≤ (maybeFill (ThreadCfg.mk [] 0 1 0 1 (fun _ => 0))
      (progressUpdate (threadInit (ThreadCfg.mk [] 0 1 0 1 (fun _ => 0)) 2))).localIter ∧
    ((epochBoundary (ThreadCfg.mk [] 0 1 0 1 (fun _ => 0))
        (maybeFill (ThreadCfg.mk [] 0 1 0 1 (fun _ => 0))
          (progressUpdate (threadInit (ThreadCfg.mk [] 0 1 0 1 (fun _ => 0)) 2))) = true ↔
      ((maybeFill (ThreadCfg.mk [] 0 1 0 1 (fun _ => 0))
          (progressUpdate (threadInit (ThreadCfg.mk [] 0 1 0 1 (fun _ => 0)) 2))).sentenceLength = 0 ∧
        (maybeFill (ThreadCfg.mk [] 0 1 0 1 (fun _ => 0))
          (progressUpdate (threadInit (ThreadCfg.mk [] 0 1 0 1 (fun _ => 0)) 2))).eofReached = true) ∨
      (maybeFill (ThreadCfg.mk [] 0 1 0 1 (fun _ => 0))
        (progressUpdate (threadInit (ThreadCfg.mk [] 0 1 0 1 (fun _ => 0)) 2))).wordCount >
        (ThreadCfg.mk [] 0 1 0 1 (fun _ => 0)).trainWords /
          (ThreadCfg.mk [] 0 1 0 1 (fun _ => 0)).numThreads)) ∧
    threadLoop (ThreadCfg.mk [] 0 1 0 1 (fun _ => 0)) (5 + 1)
        (threadInit (ThreadCfg.mk [] 0 1 0 1 (fun _ => 0)) 2) =
      (if epochBoundary (ThreadCfg.mk [] 0 1 0 1 (fun _ => 0))
          (maybeFill (ThreadCfg.mk [] 0 1 0 1 (fun _ => 0))
            (progressUpdate (threadInit (ThreadCfg.mk [] 0 1 0 1 (fun _ => 0)) 2))) then
        (if (maybeFill (ThreadCfg.mk [] 0 1 0 1 (fun _ => 0))
            (progressUpdate (threadInit (ThreadCfg.mk [] 0 1 0 1 (fun _ => 0)) 2))).localIter = 1 then
          .ok { maybeFill (ThreadCfg.mk [] 0 1 0 1 (fun _ => 0))
              (progressUpdate (threadInit (ThreadCfg.mk [] 0 1 0 1 (fun _ => 0)) 2)) with
                localIter := (maybeFill (ThreadCfg.mk [] 0 1 0 1 (fun _ => 0))
                  (progressUpdate (threadInit (ThreadCfg.mk [] 0 1 0 1 (fun _ => 0)) 2))).localIter - 1 }
        else threadLoop (ThreadCfg.mk [] 0 1 0 1 (fun _ => 0)) 5
          (epochReset (ThreadCfg.mk [] 0 1 0 1 (fun _ => 0))
            (maybeFill (ThreadCfg.mk [] 0 1 0 1 (fun _ => 0))
              (progressUpdate (threadInit (ThreadCfg.mk [] 0 1 0 1 (fun _ => 0)) 2)))))
      else threadLoop (ThreadCfg.mk [] 0 1 0 1 (fun _ => 0)) 5
        (processAdvance (maybeFill (ThreadCfg.mk [] 0 1 0 1 (fun _ => 0))
          (progressUpdate (threadInit (ThreadCfg.mk [] 0 1 0 1 (fun _ => 0)) 2))))) ∧
    (epochReset (ThreadCfg.mk [] 0 1 0 1 (fun _ => 0))
        (maybeFill (ThreadCfg.mk [] 0 1 0 1 (fun _ => 0))
          (progressUpdate (threadInit (ThreadCfg.mk [] 0 1 0 1 (fun _ => 0)) 2)))).localIter =
      (maybeFill (ThreadCfg.mk [] 0 1 0 1 (fun _ => 0))
        (progressUpdate (threadInit (ThreadCfg.mk [] 0 1 0 1 (fun _ => 0)) 2))).localIter - 1 ∧
    (epochReset (ThreadCfg.mk [] 0 1 0 1 (fun _ => 0))
        (maybeFill (ThreadCfg.mk [] 0 1 0 1 (fun _ => 0))
          (progressUpdate (threadInit (ThreadCfg.mk [] 0 1 0 1 (fun _ => 0)) 2)))).wordCount = 0 ∧
    (epochReset (ThreadCfg.mk [] 0 1 0 1 (fun _ => 0))
        (maybeFill (ThreadCfg.mk [] 0 1 0 1 (fun _ => 0))
          (progressUpdate (threadInit (ThreadCfg.mk [] 0 1 0 1 (fun _ => 0)) 2)))).lastWordCount = 0 ∧
    (epochReset (ThreadCfg.mk [] 0 1 0 1 (fun _ => 0))
        (maybeFill (ThreadCfg.mk [] 0 1 0 1 (fun _ => 0))
          (progressUpdate (threadInit (ThreadCfg.mk [] 0 1 0 1 (fun _ => 0)) 2)))).sentenceLength = 0 ∧
    (epochReset (ThreadCfg.mk [] 0 1 0 1 (fun _ => 0))
        (maybeFill (ThreadCfg.mk [] 0 1 0 1 (fun _ => 0))
          (progressUpdate (threadInit (ThreadCfg.mk [] 0 1 0 1 (fun _ => 0)) 2)))).sentence = [] ∧
    (epochReset (ThreadCfg.mk [] 0 1 0 1 (fun _ => 0))
        (maybeFill (ThreadCfg.mk [] 0 1 0 1 (fun _ => 0))
          (progressUpdate (threadInit (ThreadCfg.mk [] 0 1 0 1 (fun _ => 0)) 2)))).fi =
      ftiReset (ThreadCfg.mk [] 0 1 0 1 (fun _ => 0)).content
        (maybeFill (ThreadCfg.mk [] 0 1 0 1 (fun _ => 0))
          (progressUpdate (threadInit (ThreadCfg.mk [] 0 1 0 1 (fun _ => 0)) 2))).fi
        (ThreadCfg.mk [] 0 1 0 1 (fun _ => 0)).offset ∧
    (epochReset (ThreadCfg.mk [] 0 1 0 1 (fun _ => 0))
        (maybeFill (ThreadCfg.mk [] 0 1 0 1 (fun _ => 0))
          (progressUpdate (threadInit (ThreadCfg.mk [] 0 1 0 1 (fun _ => 0)) 2)))).eofReached =
      false :=
  ⟨by decide,
    claimC6_epoch_transition (ThreadCfg.mk [] 0 1 0 1 (fun _ => 0)) 5
      (threadInit (ThreadCfg.mk [] 0 1 0 1 (fun _ => 0)) 2) (by decide)⟩

end W2V
